import Mathlib

/-!
Verification development for the gecko configuration-scanning engine.

The definitions below are a shallow embedding, into Lean, of the core of the
repository:

* `packages/core/src/parser/Sanitizer.ts`        → `Gecko.sanitizeText`
* `packages/core/src/parser/BlockStarters.ts`    → `Gecko.BlockStarters`
* `packages/core/src/parser/SchemaAwareParser.ts`→ `Gecko.parse` and helpers
* `packages/core/src/engine/Runner.ts`           → `Gecko.RuleEngine.run`,
                                                   `Gecko.RuleEngine.matchesSelector`
* `packages/core/src/types/*`                    → the data structures

Strings are modelled as lists of Unicode characters (`List Char`), which
coincides with JavaScript string semantics for every input considered here
(all the characters involved are in the Basic Multilingual Plane, so
JavaScript UTF-16 indexing agrees with codepoint indexing on the relevant
operations).  JavaScript regular expressions from `BlockStarters.ts` are
translated pattern by pattern into explicit matching functions; each pattern
there is an anchored sequence of literals, `\s+`, `\S+`, `\d+`, alternations
of distinct literals and one negative lookahead, for which greedy matching
without backtracking is equivalent to the regex semantics (consumed
whitespace runs are always followed by a non-whitespace token, and the
alternatives are never prefixes of one another).
-/

namespace Gecko

/-- The set of characters matched by JavaScript `\s` (and removed by
`String.prototype.trim`): WhiteSpace plus LineTerminator. -/
def isWsChar (c : Char) : Bool :=
  let n := c.toNat
  n = 9 || n = 10 || n = 11 || n = 12 || n = 13 || n = 32 || n = 160 ||
  n = 5760 || (8192 ≤ n && n ≤ 8202) || n = 8232 || n = 8233 ||
  n = 8239 || n = 8287 || n = 12288 || n = 65279

/-- The characters replaced by an ASCII space in `Sanitizer.ts`:
`[  -   　]`. -/
def isSanitizeTarget (c : Char) : Bool :=
  let n := c.toNat
  n = 160 || (8192 ≤ n && n ≤ 8202) || n = 8239 || n = 8287 || n = 12288

/-- Strip leading and trailing JavaScript whitespace (`String.prototype.trim`). -/
def trimWs (s : List Char) : List Char :=
  ((s.dropWhile isWsChar).reverse.dropWhile isWsChar).reverse

/-- Function `sanitizeText` from `packages/core/src/parser/Sanitizer.ts`: replace the
exotic space characters by U+0020, then trim. -/
def sanitizeText (s : List Char) : List Char :=
  trimWs (s.map fun c => if isSanitizeTarget c then ' ' else c)

/-- The effect of `configText.split('\n')`: split on line feeds, keeping empty segments. -/
def splitLines : List Char → List (List Char)
  | [] => [[]]
  | c :: rest =>
    if c = '\n' then [] :: splitLines rest
    else
      match splitLines rest with
      | [] => [[c]]
      | l :: ls => (c :: l) :: ls

/-- ASCII lowercasing of a single character, the effect of JavaScript
case-insensitive matching (`/i`) and of `toLowerCase` on ASCII input. -/
def toLowerAscii (c : Char) : Char :=
  if 65 ≤ c.toNat && c.toNat ≤ 90 then Char.ofNat (c.toNat + 32) else c

/-- A prefix matcher: consume a prefix of the input, return the remainder. -/
abbrev M := List Char → Option (List Char)

/-- Match a literal (given in lowercase) ASCII-case-insensitively. -/
def mLit : List Char → M
  | [], s => some s
  | _ :: _, [] => none
  | p :: ps, c :: cs => if toLowerAscii c = p then mLit ps cs else none

/-- Greedy `\s+`. -/
def mWs : M
  | [] => none
  | c :: cs => if isWsChar c then some (cs.dropWhile isWsChar) else none

/-- Greedy `\S+`. -/
def mNonWs : M
  | [] => none
  | c :: cs => if isWsChar c then none else some (cs.dropWhile (fun d => !isWsChar d))

/-- Greedy `\d+` (ASCII digits, as in JavaScript `\d`). -/
def mDigits : M
  | [] => none
  | c :: cs => if c.isDigit then some (cs.dropWhile Char.isDigit) else none

/-- Sequencing of matchers. -/
def mSeq (a b : M) : M := fun s => (a s).bind b

/-- Ordered alternation of matchers. -/
def mAlt (a b : M) : M := fun s =>
  match a s with
  | some r => some r
  | none => b s

def mStr (lit : String) : M := mLit lit.data

def mTest (m : M) (s : List Char) : Bool := (m s).isSome

/-- Pattern `/^router\s+(?!router-id)\S+/i`: the negative lookahead rejects a
position at which `router-id` would match. -/
def bsRouter : M := fun s =>
  match mSeq (mStr "router") mWs s with
  | none => none
  | some rest => if (mStr "router-id" rest).isSome then none else mNonWs rest

/-- The ordered pattern list of `packages/core/src/parser/BlockStarters.ts`,
one matcher per regular expression, in source order. -/
def BlockStarters : List M :=
  [ mSeq (mStr "interface") (mSeq mWs mNonWs),
    bsRouter,
    mSeq (mStr "address-family") (mSeq mWs mNonWs),
    mSeq (mStr "af-interface") (mSeq mWs mNonWs),
    mSeq (mStr "topology") (mSeq mWs mNonWs),
    mSeq (mStr "vlan") (mSeq mWs mDigits),
    mSeq (mStr "spanning-tree") (mSeq mWs mNonWs),
    mSeq (mStr "ip") (mSeq mWs (mSeq (mStr "access-list") (mSeq mWs mNonWs))),
    mSeq (mStr "access-list") (mSeq mWs mNonWs),
    mSeq (mStr "ip") (mSeq mWs (mSeq (mStr "prefix-list") (mSeq mWs mNonWs))),
    mSeq (mStr "route-map") (mSeq mWs mNonWs),
    mSeq (mStr "crypto") (mSeq mWs (mSeq (mStr "map") (mSeq mWs mNonWs))),
    mSeq (mStr "crypto") (mSeq mWs (mSeq (mStr "isakmp") (mSeq mWs mNonWs))),
    mSeq (mStr "crypto") (mSeq mWs (mSeq (mStr "ipsec") (mSeq mWs mNonWs))),
    mSeq (mStr "class-map") (mSeq mWs mNonWs),
    mSeq (mStr "policy-map") (mSeq mWs mNonWs),
    mSeq (mStr "line") (mSeq mWs
      (mSeq (mAlt (mStr "vty") (mAlt (mStr "console") (mStr "aux")))
        (mSeq mWs mNonWs))),
    mSeq (mStr "line") (mSeq mWs mDigits),
    mSeq (mStr "object-group") (mSeq mWs mNonWs),
    mSeq (mStr "object") (mSeq mWs mNonWs),
    mSeq (mStr "aaa") (mSeq mWs (mSeq (mStr "group") (mSeq mWs
      (mSeq (mStr "server") (mSeq mWs mNonWs))))),
    mSeq (mStr "dial-peer") (mSeq mWs (mSeq (mStr "voice") (mSeq mWs mNonWs))),
    mSeq (mStr "voice") (mSeq mWs (mSeq (mStr "register") (mSeq mWs mNonWs))),
    mStr "telephony-service",
    mSeq (mStr "ephone-dn") (mSeq mWs mNonWs),
    mSeq (mStr "ephone") (mSeq mWs mNonWs),
    mSeq (mStr "ip") (mSeq mWs (mSeq (mStr "vrf") (mSeq mWs mNonWs))),
    mSeq (mStr "vrf") (mSeq mWs (mSeq (mStr "definition") (mSeq mWs mNonWs))),
    mSeq (mStr "key") (mSeq mWs (mSeq (mStr "chain") (mSeq mWs mNonWs))),
    mSeq (mStr "track") (mSeq mWs mDigits),
    mStr "redundancy",
    mSeq (mStr "controller") (mSeq mWs mNonWs),
    mStr "archive",
    mSeq (mStr "ip") (mSeq mWs (mSeq (mStr "sla") (mSeq mWs mDigits))),
    mSeq (mStr "tacacs") (mSeq mWs (mSeq (mStr "server") (mSeq mWs mNonWs))),
    mSeq (mStr "radius") (mSeq mWs (mSeq (mStr "server") (mSeq mWs mNonWs))),
    mSeq (mStr "snmp-server") (mSeq mWs (mSeq (mStr "view") (mSeq mWs mNonWs))),
    mSeq (mStr "banner") (mSeq mWs
      (mAlt (mStr "motd") (mAlt (mStr "login") (mStr "exec")))),
    mStr "control-plane" ]

/-- Method `SchemaAwareParser.isSchemaBlockStarter`: true iff some pattern matches. -/
def isSchemaBlockStarter (sanitizedLine : List Char) : Bool :=
  BlockStarters.any fun m => mTest m sanitizedLine

/-- Type `NodeType` from `packages/core/src/types/ConfigNode.ts`
(`'section' | 'command' | 'comment' | 'virtual_root'`). -/
inductive NodeType where
  | «section»
  | command
  | comment
  | virtual_root
deriving DecidableEq, Repr

/-- The `source` tag of a node: `'base' | 'snippet'`. -/
inductive Source where
  | base
  | snippet
deriving DecidableEq, Repr

/-- The `loc` record `{ startLine, endLine }`. -/
structure Loc where
  startLine : Nat
  endLine : Nat
deriving DecidableEq, Repr

/-- Type `ConfigNode` from `packages/core/src/types/ConfigNode.ts` (the interface
file itself is not in the sources; the field list follows the design document
`PROJECT.md` §4.A together with every construction site in
`SchemaAwareParser.ts`).  `indent` is optional because
`applyVirtualContext` constructs virtual-root nodes without it, while
`createConfigNode` always populates it. -/
inductive ConfigNode where
  | mk (id : String) (type : NodeType) (rawText : String)
       (params : List String) (children : List ConfigNode)
       (source : Source) (loc : Loc) (indent : Option Nat)

def ConfigNode.id : ConfigNode → String
  | .mk i _ _ _ _ _ _ _ => i

def ConfigNode.type : ConfigNode → NodeType
  | .mk _ t _ _ _ _ _ _ => t

def ConfigNode.rawText : ConfigNode → String
  | .mk _ _ r _ _ _ _ _ => r

def ConfigNode.params : ConfigNode → List String
  | .mk _ _ _ p _ _ _ _ => p

def ConfigNode.children : ConfigNode → List ConfigNode
  | .mk _ _ _ _ cs _ _ _ => cs

def ConfigNode.source : ConfigNode → Source
  | .mk _ _ _ _ _ s _ _ => s

def ConfigNode.loc : ConfigNode → Loc
  | .mk _ _ _ _ _ _ l _ => l

def ConfigNode.indent : ConfigNode → Option Nat
  | .mk _ _ _ _ _ _ _ d => d

/-- A node with the `children` field forgotten; all fields other than
`children` are immutable after creation, so two nodes with equal shallow
parts differ at most in their subtrees. -/
structure ShallowNode where
  id : String
  type : NodeType
  rawText : String
  params : List String
  source : Source
  loc : Loc
  indent : Option Nat
deriving DecidableEq, Repr

def ConfigNode.shallow : ConfigNode → ShallowNode
  | .mk i t r p _ s l d => ⟨i, t, r, p, s, l, d⟩

/-- Type `ParsedLine` from `SchemaAwareParser.ts`. -/
structure ParsedLine where
  original : List Char
  sanitized : List Char
  lineNumber : Nat
  indent : Nat
  isBlockStarter : Bool
deriving DecidableEq, Repr

/-- The per-line preprocessing of `SchemaAwareParser.parse` (lines 61–77):
skip a line whose sanitized form is empty or starts with `!`; otherwise
record original text, sanitized text, absolute line number, measured indent
(`originalLine.search(/\S|$/)`, the number of leading whitespace characters
of the original line) and the block-starter flag. -/
def mkParsedLine (startLine : Nat) (p : Nat × List Char) : Option ParsedLine :=
  let san := sanitizeText p.2
  if san.length = 0 || san.head? = some '!' then none
  else some ⟨p.2, san, startLine + p.1, (p.2.takeWhile isWsChar).length,
    isSchemaBlockStarter san⟩

def lineContexts (startLine : Nat) (text : List Char) : List ParsedLine :=
  ((splitLines text).enum).filterMap (mkParsedLine startLine)

/-- Helper for `sanitized.split(/\s+/).filter(p => p.length > 0)`: the
maximal runs of non-whitespace characters, accumulator-style. -/
def splitWsGo : List Char → List Char → List (List Char)
  | [], acc => if acc.isEmpty then [] else [acc.reverse]
  | c :: cs, acc =>
    if isWsChar c then
      if acc.isEmpty then splitWsGo cs [] else acc.reverse :: splitWsGo cs []
    else splitWsGo cs (c :: acc)

def splitWsRuns (s : List Char) : List (List Char) := splitWsGo s []

/-- The node type chosen at line 83 of `SchemaAwareParser.ts`. -/
def nodeTypeOf (L : ParsedLine) : NodeType :=
  if L.isBlockStarter then .«section» else .command

/-- Method `SchemaAwareParser.createConfigNode` (lines 130–149). -/
def createConfigNode (src : Source) (L : ParsedLine) : ConfigNode :=
  .mk (String.mk L.sanitized) (nodeTypeOf L) (String.mk L.original)
      ((splitWsRuns L.sanitized).map String.mk) [] src
      ⟨L.lineNumber, L.lineNumber⟩ (some L.indent)

/-- What the pop loop of `parse` reads from a stack node: its `indent` and
`type` fields, both fixed at creation. -/
structure StackEntry where
  indent : Nat
  type : NodeType
deriving DecidableEq, Repr

def mkEntry (L : ParsedLine) : StackEntry := ⟨L.indent, nodeTypeOf L⟩

/-- The pop condition of `SchemaAwareParser.parse` (lines 94–97):
`isIndentationBreak || isBlockStarterForcingPop`. -/
def shouldPop (L : ParsedLine) (top : StackEntry) : Bool :=
  (L.indent ≤ top.indent) || (L.isBlockStarter && !(top.type = .«section»))

/-- The `while (parentStack.length > 0)` loop of `parse` (lines 91–102),
popping one entry at a time while the condition holds. -/
def popLoop (L : ParsedLine) : List StackEntry → List StackEntry
  | [] => []
  | top :: rest => if shouldPop L top then popLoop L rest else top :: rest

/-- Apply `f` to the last element of a list; on an empty list produce `[d]`.
(The empty case is unreachable in the parser: the stack is never deeper
than the rightmost spine it mirrors.) -/
def updLastD (f : ConfigNode → ConfigNode) (d : ConfigNode) :
    List ConfigNode → List ConfigNode
  | [] => [d]
  | [c] => [f c]
  | c :: c₂ :: cs => c :: updLastD f d (c₂ :: cs)

/-- Append `n` as a new last child of the node sitting at depth `k` on the
rightmost spine of `c` (depth 0 being `c` itself). -/
def appendAtSpine : Nat → ConfigNode → ConfigNode → ConfigNode
  | 0, .mk i t r p cs s l d, n => .mk i t r p (cs ++ [n]) s l d
  | Nat.succ k, .mk i t r p cs s l d, n =>
      .mk i t r p (updLastD (fun c => appendAtSpine k c n) n cs) s l d

/-- Parser state: the root forest built so far together with the parent
stack (top first).

In `SchemaAwareParser.parse` the stack holds references to nodes that are
already part of the forest and whose `children` arrays are later mutated in
place.  This pure embedding keeps, instead of aliased references, the two
facts that together determine the run: (1) the shallow data the pop loop
reads from each stacked node (`indent` and `type`), and (2) the position of
each stacked node inside the forest.  The latter needs no extra bookkeeping
because of a structural invariant of the algorithm: the parent stack,
bottom to top, is always an initial segment of the rightmost spine of the
most recent root (each pushed node was appended as the *last* child of the
previous stack top, and nodes are only ever appended at the current top,
so no later append can fall outside that spine).  Mutation of the stack
top's `children` is therefore `appendAtSpine` at depth `stack length - 1`,
performed — exactly as in the source — at the moment the new node is
created. -/
structure PState where
  roots : List ConfigNode
  stack : List StackEntry

def initState : PState := ⟨[], []⟩

/-- One iteration of the main loop of `SchemaAwareParser.parse`
(lines 82–113): create the node, pop the stack, attach the node to the
remaining top (or to the root forest), push it. -/
def processLine (src : Source) (st : PState) (L : ParsedLine) : PState :=
  let newNode := createConfigNode src L
  let kept := popLoop L st.stack
  let roots' :=
    match kept with
    | [] => st.roots ++ [newNode]
    | _ :: _ => updLastD (fun r => appendAtSpine (kept.length - 1) r newNode)
        newNode st.roots
  ⟨roots', mkEntry L :: kept⟩

/-- The main pass of `parse`: fold `processLine` over the surviving lines. -/
def runMainPass (src : Source) (ls : List ParsedLine) : List ConfigNode :=
  (ls.foldl (processLine src) initState).roots

def vrId (n : Nat) : String := "virtual_root_line_" ++ toString n

/-- The virtual root created at lines 166–180 of `SchemaAwareParser.ts`,
already holding its first child `n` (the source pushes the node and raises
`endLine` to `max` immediately after creating the root, which leaves
`endLine = n.loc.endLine`). -/
def newVirtualRoot (src : Source) (n : ConfigNode) : ConfigNode :=
  .mk (vrId n.loc.startLine) .virtual_root "virtual_root" ["virtual_root"]
      [n] src ⟨n.loc.startLine, n.loc.endLine⟩ none

/-- Lines 182–184: push the command into the active virtual root and extend
its span. -/
def addToVirtualRoot (vr n : ConfigNode) : ConfigNode :=
  match vr with
  | .mk i t r p cs s l d =>
      .mk i t r p (cs ++ [n]) s ⟨l.startLine, max l.endLine n.loc.endLine⟩ d

/-- The loop of `SchemaAwareParser.applyVirtualContext` (lines 159–193).
The second argument is the `currentVirtualRoot` under construction; in the
source it is an aliased element of `processedNodes` mutated in place, here
it is emitted once its run ends (its position in the output — just before
the nodes that follow the run — is the position at which the source pushed
it). -/
def avcGo (src : Source) : List ConfigNode → Option ConfigNode → List ConfigNode
  | [], none => []
  | [], some vr => [vr]
  | n :: rest, none =>
    if n.type = .command then avcGo src rest (some (newVirtualRoot src n))
    else n :: avcGo src rest none
  | n :: rest, some vr =>
    if n.type = .command then avcGo src rest (some (addToVirtualRoot vr n))
    else vr :: n :: avcGo src rest none

def applyVirtualContext (src : Source) (nodes : List ConfigNode) :
    List ConfigNode :=
  avcGo src nodes none

/-- Type `ParserOptions` with defaults resolved (`startLine = 0`,
`source = 'base'`). -/
structure ParserOptions where
  startLine : Nat
  source : Source
deriving DecidableEq, Repr

def defaultOptions : ParserOptions := ⟨0, .base⟩

/-- Method `SchemaAwareParser.parse` (lines 56–117): preprocess, run the stack
pass, wrap orphan runs in virtual roots. -/
def parse (opts : ParserOptions) (text : String) : List ConfigNode :=
  applyVirtualContext opts.source
    (runMainPass opts.source (lineContexts opts.startLine text.data))

/-- Result severity, `'error' | 'warning' | 'info'`. -/
inductive Level where
  | error
  | warning
  | info
deriving DecidableEq, Repr

/-- Type `RuleResult` from `packages/core/src/types/IRule.ts`. -/
structure RuleResult where
  passed : Bool
  message : String
  ruleId : String
  nodeId : String
  level : Level
  remediation : Option String
  loc : Option Loc
deriving DecidableEq, Repr

/-- The context handed to rule checks.  `IRule.ts` declares `Context` as an
empty placeholder interface; `Runner.ts` passes `{ ...context, ast: nodes }`,
so the only live field is `ast`, the whole forest. -/
structure Context where
  ast : List ConfigNode

structure RuleMetadata where
  level : Level
  obu : String
  owner : String
  remediation : Option String

/-- Type `IRule` from `packages/core/src/types/IRule.ts`.  A check that throws is
modelled as returning `Except.error` with the failure description (the
string interpolated into the synthesized message by `Runner.ts`). -/
structure IRule where
  id : String
  selector : Option String
  check : ConfigNode → Context → Except String RuleResult
  metadata : RuleMetadata

def lowerStr (s : String) : String := String.mk (s.data.map toLowerAscii)

namespace RuleEngine

/-- Method `RuleEngine.matchesSelector` (lines 77–98 of `Runner.ts`): an absent
selector matches everything; `if (!selector) return true` also sends the
empty string to `true` (it is falsy); otherwise a case-insensitive
`startsWith` of the node id against the selector. -/
def matchesSelector (node : ConfigNode) (selector : Option String) : Bool :=
  match selector with
  | none => true
  | some sel =>
    if sel.data.length = 0 then true
    else (lowerStr sel).data.isPrefixOf (lowerStr node.id).data

/-- The body of the per-rule loop in `RuleEngine.run`: `none` when the
selector does not match, otherwise the check's result, or the synthesized
failing result when the check terminates abnormally (lines 43–53). -/
def applyRule (ctx : Context) (node : ConfigNode) (rule : IRule) :
    Option RuleResult :=
  if matchesSelector node rule.selector then
    match rule.check node ctx with
    | .ok result => some result
    | .error e =>
        some ⟨false, "Rule execution error: " ++ e, rule.id, node.id,
          .error, none, some node.loc⟩
  else none

mutual

/-- The recursive `visit` helper of `RuleEngine.run`: results of all rules
on the node itself, then the results of the children in order. -/
def visitNode (rules : List IRule) (ctx : Context) : ConfigNode → List RuleResult
  | .mk i t r p cs s l d =>
      rules.filterMap (applyRule ctx (.mk i t r p cs s l d)) ++
        visitList rules ctx cs

def visitList (rules : List IRule) (ctx : Context) :
    List ConfigNode → List RuleResult
  | [] => []
  | c :: cs => visitNode rules ctx c ++ visitList rules ctx cs

end

/-- Method `RuleEngine.run` (lines 18–68 of `Runner.ts`). -/
def run (nodes : List ConfigNode) (rules : List IRule) : List RuleResult :=
  visitList rules ⟨nodes⟩ nodes

end RuleEngine

mutual

/-- Depth-first pre-order flattening of a tree. -/
def preorderNode : ConfigNode → List ConfigNode
  | .mk i t r p cs s l d => .mk i t r p cs s l d :: preorderList cs

/-- Depth-first pre-order flattening of a forest. -/
def preorderList : List ConfigNode → List ConfigNode
  | [] => []
  | c :: cs => preorderNode c ++ preorderList cs

end

/-- The `raw_text` of a node unless it is a virtual root. -/
def rawIfNotVirtual (n : ConfigNode) : Option String :=
  if n.type = .virtual_root then none else some n.rawText

/-- Pre-order raw texts of a forest, skipping virtual roots. -/
def nvRaws (ns : List ConfigNode) : List String :=
  (preorderList ns).filterMap rawIfNotVirtual

/-- Pre-order shallow projections of a forest. -/
def shallowPre (ns : List ConfigNode) : List ShallowNode :=
  (preorderList ns).map ConfigNode.shallow

/-- The surviving lines of an input: those whose sanitized form is neither
empty nor a `!` comment, with their original text. -/
def survivingLines (text : List Char) : List String :=
  ((splitLines text).filter fun l =>
    let s := sanitizeText l
    !(s.length = 0 || s.head? = some '!')).map String.mk

/-- Pre-order raw texts of a single tree, skipping virtual roots. -/
def nvRawsN (c : ConfigNode) : List String :=
  (preorderNode c).filterMap rawIfNotVirtual

/-- Raw texts carried by the virtual root under construction. -/
def accRaws : Option ConfigNode → List String
  | none => []
  | some vr => nvRawsN vr

/-- Function `rawIfNotVirtual` factors through the shallow projection. -/
def shRaw (sh : ShallowNode) : Option String :=
  if sh.type = .virtual_root then none else some sh.rawText

/-- Shallow projections of a single tree in pre-order. -/
def shallowPreN (c : ConfigNode) : List ShallowNode :=
  (preorderNode c).map ConfigNode.shallow

/-- The shallow part shared by every virtual root the wrapper builds. -/
def vrShallow (src : Source) (m k : Nat) : ShallowNode :=
  ⟨vrId m, .virtual_root, "virtual_root", ["virtual_root"], src, ⟨m, k⟩, none⟩

/-- A flat-indent snippet: a section line followed by an equally indented
command; the child line is indented one space deeper. -/
def cexTextNest : String := "interface Gi0/1\n ip address 10.0.0.1 255.255.255.0"

def cmdNode1 : ConfigNode :=
  .mk "ip address 10.0.0.1 255.255.255.0" .command
    " ip address 10.0.0.1 255.255.255.0"
    ["ip", "address", "10.0.0.1", "255.255.255.0"] [] .base ⟨1, 1⟩ (some 1)

def secNode1 : ConfigNode :=
  .mk "interface Gi0/1" .«section» "interface Gi0/1" ["interface", "Gi0/1"]
    [cmdNode1] .base ⟨0, 0⟩ (some 0)

/-- A one-line orphan command, wrapped by the virtual-root pass. -/
def cexTextOrphan : String := "no shutdown"

def ipv6Node : ConfigNode :=
  .mk "ipv6 address 2001::1/64" .command "ipv6 address 2001::1/64"
    ["ipv6", "address", "2001::1/64"] [] .base ⟨0, 0⟩ (some 0)

def ipv4Node : ConfigNode :=
  .mk "ip address 10.0.0.1 255.255.255.0" .command
    "ip address 10.0.0.1 255.255.255.0"
    ["ip", "address", "10.0.0.1", "255.255.255.0"] [] .base ⟨0, 0⟩ (some 0)

/-- The flat snippet of spec scenario S2: three lines, all at indent 0. -/
def cexTextFlat : String :=
  "interface Gi0/1\nip address 10.0.0.1 255.255.255.0\ninterface Gi0/2"

def orphanCmdNode : ConfigNode :=
  .mk "no shutdown" .command "no shutdown" ["no", "shutdown"] [] .base
    ⟨0, 0⟩ (some 0)

def vrNodeOrphan : ConfigNode :=
  .mk "virtual_root_line_0" .virtual_root "virtual_root" ["virtual_root"]
    [orphanCmdNode] .base ⟨0, 0⟩ none

/-- A rule with a present-but-empty selector whose check returns a passing
result. -/
def emptySelRule : IRule :=
  ⟨"R-EMPTY", some "", fun n _ => .ok ⟨true, "empty selector ran", "R-EMPTY",
    n.id, .info, none, some n.loc⟩, ⟨.info, "core", "tests", none⟩⟩

/-- A selector-less rule whose check always passes. -/
def passRule : IRule :=
  ⟨"R-PASS", none, fun n _ => .ok ⟨true, "ok", "R-PASS", n.id, .info, none,
    some n.loc⟩, ⟨.info, "core", "tests", none⟩⟩

/-- A selector-less rule whose check always terminates abnormally. -/
def failRule : IRule :=
  ⟨"R-FAIL", none, fun _ _ => .error "boom", ⟨.error, "core", "tests", none⟩⟩

/-- The pre-wrapper forest: the root nodes produced by the main stack pass,
before `applyVirtualContext`. -/
def mainRoots (opts : ParserOptions) (text : String) : List ConfigNode :=
  runMainPass opts.source (lineContexts opts.startLine text.data)

def isCmd (n : ConfigNode) : Bool := n.type = .command

/-- The maximum `endLine` among a list of nodes. -/
def maxEndLine (run : List ConfigNode) : Nat :=
  run.foldl (fun a c => max a c.loc.endLine) 0

/-- Written from the claim: the virtual root for a maximal run — children
are the run in order, id `virtual_root_line_<n>` for the first child's
start line, `loc` from the first child's start line to the maximum end line
among the children, `source` from parser options. -/
def mkVirtualRootSpec (src : Source) (first : ConfigNode)
    (run : List ConfigNode) : ConfigNode :=
  .mk (vrId first.loc.startLine) .virtual_root "virtual_root"
    ["virtual_root"] run src ⟨first.loc.startLine, maxEndLine run⟩ none

/-- Written from the claim: replace every maximal run of consecutive
top-level `command` nodes by exactly one virtual root whose children are
that run; other nodes appear unchanged and break runs. -/
def groupRunsSpec (src : Source) : List ConfigNode → List ConfigNode
  | [] => []
  | n :: rest =>
    if isCmd n then
      mkVirtualRootSpec src n (n :: rest.takeWhile isCmd) ::
        groupRunsSpec src (rest.dropWhile isCmd)
    else n :: groupRunsSpec src rest
termination_by l => l.length
decreasing_by
  · simp only [List.length_cons]
    exact Nat.lt_succ_of_le (List.Sublist.length_le (List.dropWhile_sublist _))
  · simp

/-- The number of maximal runs of consecutive `command` nodes. -/
def countRuns : List ConfigNode → Nat
  | [] => 0
  | n :: rest =>
    if isCmd n then countRuns (rest.dropWhile isCmd) + 1
    else countRuns rest
termination_by l => l.length
decreasing_by
  · simp only [List.length_cons]
    exact Nat.lt_succ_of_le (List.Sublist.length_le (List.dropWhile_sublist _))
  · simp

def isVR (n : ConfigNode) : Bool := n.type = .virtual_root

/-- The stack entry `e` records exactly the shallow data the pop loop reads
from the node `c` it mirrors. -/
def entryAgrees (e : StackEntry) (c : ConfigNode) : Bool :=
  (c.indent = some e.indent) && (c.type = e.type)

/-- Relation `spineMatchB es c`: the entries `es` (bottom of the stack first) mirror
the nodes along the rightmost spine of `c`, starting at `c` itself. -/
def spineMatchB : List StackEntry → ConfigNode → Bool
  | [], _ => true
  | e :: es, c =>
    entryAgrees e c &&
      match es with
      | [] => true
      | _ :: _ =>
        match c.children.getLast? with
        | some d => spineMatchB es d
        | none => false

/-- Parser-state invariant: the stack, bottom to top, mirrors the rightmost
spine of the most recent root. -/
def stateInvB (st : PState) : Bool :=
  match st.stack with
  | [] => true
  | _ :: _ =>
    match st.roots.getLast? with
    | some r => spineMatchB st.stack.reverse r
    | none => false

/-- The parent/child relation claimed by the strict-indent invariant, on
shallow data: the parent is a virtual root, or both indents are present and
the child's is strictly larger. -/
def pairOkB (p c : ShallowNode) : Bool :=
  (p.type = .virtual_root) ||
    match p.indent, c.indent with
    | some pi, some ci => pi < ci
    | _, _ => false

/-- Relation `pairOkB` with the parent abstracted to its stack entry. -/
def pairOkE (e : StackEntry) (sh : ShallowNode) : Bool :=
  (e.type = .virtual_root) ||
    match sh.indent with
    | some ci => e.indent < ci
    | none => false

mutual

/-- All parent/child pairs inside a tree satisfy `pairOkB`. -/
def pairsOkN : ConfigNode → Bool
  | .mk i t r pr cs s l d =>
      (cs.all fun c => pairOkB ⟨i, t, r, pr, s, l, d⟩ c.shallow) &&
        pairsOkL cs

def pairsOkL : List ConfigNode → Bool
  | [] => true
  | c :: cs => pairsOkN c && pairsOkL cs

end

/-- The surviving second line of `cexTextNest`, as preprocessed. -/
def wLine : ParsedLine :=
  ⟨" ip address 10.0.0.1 255.255.255.0".data,
   "ip address 10.0.0.1 255.255.255.0".data, 1, 1, false⟩

/-- The open `interface Gi0/1` section before its child is attached. -/
def secNode0 : ConfigNode :=
  .mk "interface Gi0/1" .«section» "interface Gi0/1" ["interface", "Gi0/1"]
    [] .base ⟨0, 0⟩ (some 0)

example : isSchemaBlockStarter "interface Gi0/1".data = true := by decide

example : isSchemaBlockStarter "ip address 10.0.0.1 255.255.255.0".data = false := by decide

example : isSchemaBlockStarter "router bgp 65000".data = true := by decide

example : isSchemaBlockStarter "router router-id 1".data = false := by decide

example : sanitizeText "  interface Gi0/1  ".data = "interface Gi0/1".data := by decide

example :
    parse defaultOptions "interface Gi0/1\n ip address 10.0.0.1 255.255.255.0" =
      [.mk "interface Gi0/1" .«section» "interface Gi0/1"
        ["interface", "Gi0/1"]
        [.mk "ip address 10.0.0.1 255.255.255.0" .command
            " ip address 10.0.0.1 255.255.255.0"
            ["ip", "address", "10.0.0.1", "255.255.255.0"] [] .base ⟨1, 1⟩
            (some 1)]
        .base ⟨0, 0⟩ (some 0)] := rfl

theorem popLoop_eq_dropWhile (L : ParsedLine) :
    ∀ s : List StackEntry, popLoop L s = s.dropWhile (shouldPop L) := by
  intro s
  induction s with
  | nil => rfl
  | cons top rest ih =>
    cases h : shouldPop L top with
    | true => simp [popLoop, List.dropWhile, h, ih]
    | false => simp [popLoop, List.dropWhile, h]

theorem preorderList_nil : preorderList [] = [] := rfl

theorem preorderList_cons (c : ConfigNode) (cs : List ConfigNode) :
    preorderList (c :: cs) = preorderNode c ++ preorderList cs := rfl

theorem preorderList_append :
    ∀ l₁ l₂ : List ConfigNode,
      preorderList (l₁ ++ l₂) = preorderList l₁ ++ preorderList l₂ := by
  intro l₁ l₂
  induction l₁ with
  | nil => rfl
  | cons c cs ih => simp [preorderList, ih]

theorem self_mem_preorderNode (c : ConfigNode) : c ∈ preorderNode c := by
  cases c with
  | mk i t r p cs s l d => simp [preorderNode]

theorem mem_preorderList_of_mem {ns : List ConfigNode} {c : ConfigNode}
    (h : c ∈ ns) : c ∈ preorderList ns := by
  induction ns with
  | nil => cases h
  | cons x xs ih =>
    rcases List.mem_cons.mp h with h' | h'
    · subst h'
      simp [preorderList, self_mem_preorderNode]
    · simp [preorderList, ih h']

theorem shallowPre_appendAtSpine :
    ∀ (k : Nat) (c n : ConfigNode),
      (preorderNode (appendAtSpine k c n)).map ConfigNode.shallow =
        (preorderNode c).map ConfigNode.shallow ++
          (preorderNode n).map ConfigNode.shallow := by
  intro k
  induction k with
  | zero =>
    intro c n
    cases c with
    | mk i t r p cs s l d =>
      simp [appendAtSpine, preorderNode, preorderList_append, preorderList_cons,
        preorderList_nil, ConfigNode.shallow]
  | succ k ih =>
    intro c n
    cases c with
    | mk i t r p cs s l d =>
      have aux : ∀ cs : List ConfigNode,
          (preorderList (updLastD (fun c => appendAtSpine k c n) n cs)).map
              ConfigNode.shallow =
            (preorderList cs).map ConfigNode.shallow ++
              (preorderNode n).map ConfigNode.shallow := by
        intro cs
        induction cs with
        | nil => simp [updLastD, preorderList]
        | cons x xs ihx =>
          cases xs with
          | nil => simp [updLastD, preorderList, ih]
          | cons y rest =>
            simp only [updLastD, preorderList, List.map_append, ihx,
              List.append_assoc]
      simp [appendAtSpine, preorderNode, ConfigNode.shallow, aux]

theorem shallowPre_updLastD (k : Nat) (n : ConfigNode) :
    ∀ roots : List ConfigNode,
      shallowPre (updLastD (fun r => appendAtSpine k r n) n roots) =
        shallowPre roots ++ (preorderNode n).map ConfigNode.shallow := by
  intro roots
  induction roots with
  | nil => simp [shallowPre, updLastD, preorderList]
  | cons x xs ih =>
    cases xs with
    | nil =>
      simp [shallowPre, updLastD, preorderList, preorderList_append,
        shallowPre_appendAtSpine]
    | cons y rest =>
      simp only [shallowPre, updLastD, preorderList, List.map_append] at ih ⊢
      simp [ih, List.append_assoc]

theorem preorderNode_createConfigNode (src : Source) (L : ParsedLine) :
    preorderNode (createConfigNode src L) = [createConfigNode src L] := by
  simp [createConfigNode, preorderNode, preorderList]

theorem shallowPre_processLine (src : Source) (st : PState) (L : ParsedLine) :
    shallowPre (processLine src st L).roots =
      shallowPre st.roots ++ [(createConfigNode src L).shallow] := by
  unfold processLine
  cases hk : popLoop L st.stack with
  | nil =>
    simp [shallowPre, preorderList_append, preorderList_cons, preorderList_nil,
      preorderNode_createConfigNode]
  | cons e es =>
    have := shallowPre_updLastD ((e :: es).length - 1) (createConfigNode src L)
      st.roots
    simpa [preorderNode_createConfigNode] using this

theorem shallowPre_foldl (src : Source) :
    ∀ (ls : List ParsedLine) (st : PState),
      shallowPre (ls.foldl (processLine src) st).roots =
        shallowPre st.roots ++
          ls.map fun L => (createConfigNode src L).shallow := by
  intro ls
  induction ls with
  | nil => intro st; simp
  | cons L rest ih =>
    intro st
    simp only [List.foldl_cons, List.map_cons, ih, shallowPre_processLine]
    simp

theorem shallowPre_runMainPass (src : Source) (ls : List ParsedLine) :
    shallowPre (runMainPass src ls) =
      ls.map fun L => (createConfigNode src L).shallow := by
  simpa [runMainPass, shallowPre, initState, preorderList]
    using shallowPre_foldl src ls initState

mutual

theorem visitNode_eq_bind (rules : List IRule) (ctx : Context) :
    (c : ConfigNode) →
      RuleEngine.visitNode rules ctx c =
        (preorderNode c).flatMap fun m =>
          rules.filterMap (RuleEngine.applyRule ctx m)
  | .mk i t r p cs s l d => by
      simp only [RuleEngine.visitNode, preorderNode, List.flatMap_cons]
      rw [visitList_eq_bind rules ctx cs]

theorem visitList_eq_bind (rules : List IRule) (ctx : Context) :
    (ns : List ConfigNode) →
      RuleEngine.visitList rules ctx ns =
        (preorderList ns).flatMap fun m =>
          rules.filterMap (RuleEngine.applyRule ctx m)
  | [] => rfl
  | c :: cs => by
      simp only [RuleEngine.visitList, preorderList_cons, List.flatMap_append]
      rw [visitNode_eq_bind rules ctx c, visitList_eq_bind rules ctx cs]

end

/-- Function `run` is the flattened pre-order walk: one block of results per visited
node, and within a node one optional result per rule, in rule order. -/
theorem run_eq_bind (nodes : List ConfigNode) (rules : List IRule) :
    RuleEngine.run nodes rules =
      (preorderList nodes).flatMap fun m =>
        rules.filterMap (RuleEngine.applyRule ⟨nodes⟩ m) :=
  visitList_eq_bind rules ⟨nodes⟩ nodes

theorem nvRaws_append (l₁ l₂ : List ConfigNode) :
    nvRaws (l₁ ++ l₂) = nvRaws l₁ ++ nvRaws l₂ := by
  simp [nvRaws, preorderList_append]

theorem nvRaws_cons (c : ConfigNode) (cs : List ConfigNode) :
    nvRaws (c :: cs) = nvRawsN c ++ nvRaws cs := by
  simp [nvRaws, nvRawsN, preorderList_cons]

theorem nvRawsN_newVirtualRoot (src : Source) (n : ConfigNode) :
    nvRawsN (newVirtualRoot src n) = nvRawsN n := by
  simp [nvRawsN, newVirtualRoot, preorderList_cons, preorderList_nil,
    preorderNode, rawIfNotVirtual, ConfigNode.type]

theorem nvRawsN_addToVirtualRoot (vr n : ConfigNode) :
    nvRawsN (addToVirtualRoot vr n) = nvRawsN vr ++ nvRawsN n := by
  cases vr with
  | mk i t r p cs s l d =>
    cases t <;>
      simp [nvRawsN, addToVirtualRoot, preorderList_cons, preorderList_nil,
        preorderNode, preorderList_append, rawIfNotVirtual, ConfigNode.type,
        ConfigNode.rawText]

theorem nvRaws_avcGo (src : Source) :
    ∀ (ns : List ConfigNode) (acc : Option ConfigNode),
      nvRaws (avcGo src ns acc) = accRaws acc ++ nvRaws ns := by
  intro ns
  induction ns with
  | nil =>
    intro acc
    cases acc with
    | none => rfl
    | some vr =>
      simp [avcGo, accRaws, nvRaws_cons, nvRaws, nvRawsN, preorderList_cons,
        preorderList_nil]
  | cons n rest ih =>
    intro acc
    cases acc with
    | none =>
      by_cases h : n.type = .command
      · simp [avcGo, h, ih, accRaws, nvRawsN_newVirtualRoot, nvRaws_cons]
      · simp [avcGo, h, ih, accRaws, nvRaws_cons]
    | some vr =>
      by_cases h : n.type = .command
      · simp [avcGo, h, ih, accRaws, nvRawsN_addToVirtualRoot, nvRaws_cons]
      · simp [avcGo, h, ih, accRaws, nvRaws_cons]

theorem nvRaws_applyVirtualContext (src : Source) (ns : List ConfigNode) :
    nvRaws (applyVirtualContext src ns) = nvRaws ns := by
  simpa [applyVirtualContext, accRaws] using nvRaws_avcGo src ns none

theorem lineContexts_map_original (k : Nat) :
    ∀ (ls : List (List Char)) (j : Nat),
      (((ls.enumFrom j).filterMap (mkParsedLine k)).map
          fun L => String.mk L.original) =
        ((ls.filter fun l =>
          !((sanitizeText l).length = 0 ||
            (sanitizeText l).head? = some '!')).map String.mk) := by
  intro ls
  induction ls with
  | nil => intro j; rfl
  | cons l rest ih =>
    intro j
    by_cases h : sanitizeText l = [] ∨ (sanitizeText l).head? = some '!'
    · have h' : ¬(¬(sanitizeText l = []) ∧
          ¬((sanitizeText l).head? = some '!')) := by tauto
      simp [List.enumFrom, List.filterMap_cons, List.filter_cons, mkParsedLine,
        List.length_eq_zero, h, h', ih]
    · push_neg at h
      simp [List.enumFrom, List.filterMap_cons, List.filter_cons, mkParsedLine,
        List.length_eq_zero, h.1, h.2, ih]

theorem lineContexts_originals (k : Nat) (text : List Char) :
    (lineContexts k text).map (fun L => String.mk L.original) =
      survivingLines text := by
  have := lineContexts_map_original k (splitLines text) 0
  simpa [lineContexts, survivingLines, List.enum] using this

theorem shallow_type (n : ConfigNode) : n.shallow.type = n.type := by
  cases n; rfl

theorem shallow_rawText (n : ConfigNode) : n.shallow.rawText = n.rawText := by
  cases n; rfl

theorem nvRaws_eq_shallowPre (ns : List ConfigNode) :
    nvRaws ns = (shallowPre ns).filterMap shRaw := by
  unfold nvRaws shallowPre
  rw [List.filterMap_map]
  congr 1
  funext n
  simp [Function.comp, shRaw, rawIfNotVirtual, shallow_type, shallow_rawText]

theorem nvRaws_runMainPass (src : Source) (ls : List ParsedLine) :
    nvRaws (runMainPass src ls) = ls.map fun L => String.mk L.original := by
  rw [nvRaws_eq_shallowPre, shallowPre_runMainPass, List.filterMap_map]
  induction ls with
  | nil => rfl
  | cons L rest ih =>
    simp only [List.filterMap_cons, List.map_cons, Function.comp]
    rw [ih]
    have : shRaw (createConfigNode src L).shallow =
        some (String.mk L.original) := by
      by_cases h : L.isBlockStarter <;>
        simp [createConfigNode, ConfigNode.shallow, shRaw, nodeTypeOf, h]
    simp [this]

theorem preorderNode_eq (c : ConfigNode) :
    preorderNode c = c :: preorderList c.children := by
  cases c; rfl

theorem shallowPre_cons (c : ConfigNode) (cs : List ConfigNode) :
    shallowPre (c :: cs) = shallowPreN c ++ shallowPre cs := by
  simp [shallowPre, shallowPreN, preorderList_cons]

theorem shallowPre_append (l₁ l₂ : List ConfigNode) :
    shallowPre (l₁ ++ l₂) = shallowPre l₁ ++ shallowPre l₂ := by
  simp [shallowPre, preorderList_append]

theorem shallowPreN_eq (c : ConfigNode) :
    shallowPreN c = c.shallow :: shallowPre c.children := by
  simp [shallowPreN, shallowPre, preorderNode_eq c]

theorem shallow_loc (n : ConfigNode) : n.shallow.loc = n.loc := by
  cases n; rfl

theorem shallow_id (n : ConfigNode) : n.shallow.id = n.id := by
  cases n; rfl

theorem shallow_indent (n : ConfigNode) : n.shallow.indent = n.indent := by
  cases n; rfl

theorem newVirtualRoot_shallow (src : Source) (n : ConfigNode) :
    (newVirtualRoot src n).shallow =
      vrShallow src n.loc.startLine n.loc.endLine := rfl

theorem newVirtualRoot_children (src : Source) (n : ConfigNode) :
    (newVirtualRoot src n).children = [n] := rfl

theorem addToVirtualRoot_children (vr n : ConfigNode) :
    (addToVirtualRoot vr n).children = vr.children ++ [n] := by
  cases vr; rfl

theorem addToVirtualRoot_shallow (src : Source) (vr n : ConfigNode)
    (m k : Nat) (h : vr.shallow = vrShallow src m k) :
    (addToVirtualRoot vr n).shallow =
      vrShallow src m (max k n.loc.endLine) := by
  cases vr with
  | mk i t r p cs s l d =>
    simp [ConfigNode.shallow, vrShallow, ShallowNode.mk.injEq] at h
    obtain ⟨h1, h2, h3, h4, h5, h6, h7⟩ := h
    subst h1; subst h2; subst h3; subst h4; subst h5; subst h7
    simp [addToVirtualRoot, ConfigNode.shallow, vrShallow, h6]

/-- Any per-node property transported through the virtual-root wrapper:
if it holds on every (shallow) node of the input forest and on every
virtual-root shallow, it holds on every node of the output forest. -/
theorem avcGo_shallow_sound (P : ShallowNode → Prop) (src : Source)
    (hVR : ∀ m k, P (vrShallow src m k)) :
    ∀ (ns : List ConfigNode) (acc : Option ConfigNode),
      (∀ sh ∈ shallowPre ns, P sh) →
      (∀ vr, acc = some vr →
        (∃ m k, vr.shallow = vrShallow src m k) ∧
          ∀ sh ∈ shallowPre vr.children, P sh) →
      ∀ sh ∈ shallowPre (avcGo src ns acc), P sh := by
  intro ns
  induction ns with
  | nil =>
    intro acc hns hacc sh hsh
    cases acc with
    | none => simp [avcGo, shallowPre, preorderList_nil] at hsh
    | some vr =>
      obtain ⟨⟨m, k, hshape⟩, hch⟩ := hacc vr rfl
      rw [show avcGo src [] (some vr) = [vr] from rfl, shallowPre_cons,
        shallowPreN_eq] at hsh
      rcases List.mem_append.mp hsh with hsh' | hsh'
      · rcases List.mem_cons.mp hsh' with h' | h'
        · rw [h', hshape]; exact hVR m k
        · exact hch sh h'
      · simp [shallowPre, preorderList_nil] at hsh'
  | cons n rest ih =>
    intro acc hns hacc sh hsh
    have hn : ∀ sh ∈ shallowPreN n, P sh := by
      intro sh' h'
      exact hns sh' (by rw [shallowPre_cons]; exact List.mem_append_left _ h')
    have hrest : ∀ sh ∈ shallowPre rest, P sh := by
      intro sh' h'
      exact hns sh' (by rw [shallowPre_cons]; exact List.mem_append_right _ h')
    cases acc with
    | none =>
      by_cases hty : n.type = .command
      · rw [show avcGo src (n :: rest) none =
            avcGo src rest (some (newVirtualRoot src n)) by
            simp [avcGo, hty]] at hsh
        refine ih (some (newVirtualRoot src n)) hrest ?_ sh hsh
        intro vr hvr
        injection hvr with hvr
        subst hvr
        refine ⟨⟨n.loc.startLine, n.loc.endLine, newVirtualRoot_shallow src n⟩, ?_⟩
        rw [newVirtualRoot_children, shallowPre_cons]
        intro sh' h'
        rcases List.mem_append.mp h' with h' | h'
        · exact hn sh' h'
        · simp [shallowPre, preorderList_nil] at h'
      · rw [show avcGo src (n :: rest) none = n :: avcGo src rest none by
            simp [avcGo, hty]] at hsh
        rw [shallowPre_cons] at hsh
        rcases List.mem_append.mp hsh with h' | h'
        · exact hn sh h'
        · exact ih none hrest (by intro vr h; cases h) sh h'
    | some vr =>
      obtain ⟨⟨m, k, hshape⟩, hch⟩ := hacc vr rfl
      by_cases hty : n.type = .command
      · rw [show avcGo src (n :: rest) (some vr) =
            avcGo src rest (some (addToVirtualRoot vr n)) by
            simp [avcGo, hty]] at hsh
        refine ih (some (addToVirtualRoot vr n)) hrest ?_ sh hsh
        intro vr' hvr'
        injection hvr' with hvr'
        subst hvr'
        refine ⟨⟨m, max k n.loc.endLine,
          addToVirtualRoot_shallow src vr n m k hshape⟩, ?_⟩
        rw [addToVirtualRoot_children, shallowPre_append]
        intro sh' h'
        rcases List.mem_append.mp h' with h' | h'
        · exact hch sh' h'
        · rw [shallowPre_cons] at h'
          rcases List.mem_append.mp h' with h' | h'
          · exact hn sh' h'
          · simp [shallowPre, preorderList_nil] at h'
      · rw [show avcGo src (n :: rest) (some vr) =
            vr :: n :: avcGo src rest none by
            simp [avcGo, hty]] at hsh
        rw [shallowPre_cons, shallowPreN_eq] at hsh
        rcases List.mem_append.mp hsh with h' | h'
        · rcases List.mem_cons.mp h' with h' | h'
          · rw [h', hshape]; exact hVR m k
          · exact hch sh h'
        · rw [shallowPre_cons] at h'
          rcases List.mem_append.mp h' with h' | h'
          · exact hn sh h'
          · exact ih none hrest (by intro vr' h; cases h) sh h'

/-- Any per-node property transported through the whole parse: it must hold
for every node created from a surviving line and for every virtual-root
shallow. -/
theorem parse_shallow_sound (P : ShallowNode → Prop) (opts : ParserOptions)
    (text : String) (hVR : ∀ m k, P (vrShallow opts.source m k))
    (hLine : ∀ L ∈ lineContexts opts.startLine text.data,
      P (createConfigNode opts.source L).shallow) :
    ∀ sh ∈ shallowPre (parse opts text), P sh := by
  unfold parse applyVirtualContext
  refine avcGo_shallow_sound P opts.source hVR _ none ?_ (by intro vr h; cases h)
  rw [shallowPre_runMainPass]
  intro sh hsh
  obtain ⟨L, hL, rfl⟩ := List.mem_map.mp hsh
  exact hLine L hL

/-- C1 counterexample: on a two-line nested input the root section gets
`endLine = 0` while its child has `endLine = 1`, so `parse` does *not*
guarantee `S.loc.endLine ≥ C.loc.endLine` for children `C` of a section
`S`: no end-line fix-up sweep exists in `SchemaAwareParser.parse`. -/
theorem C1_counterexample :
    ¬ (∀ S ∈ preorderList (parse defaultOptions cexTextNest),
        S.type = .«section» →
          ∀ C ∈ S.children, C.loc.endLine ≤ S.loc.endLine) := by
  decide

/-- C1 (corrected): the parser performs no end-line propagation at all;
every `section` node of a parse forest keeps `loc.endLine` equal to its own
`loc.startLine` (the single line it was created from), so a section with
any descendant on a later line violates the claimed invariant. -/
theorem C1_section_endLine_eq_startLine (opts : ParserOptions) (text : String) :
    ∀ n ∈ preorderList (parse opts text), n.type = .«section» →
      n.loc.endLine = n.loc.startLine := by
  have main := parse_shallow_sound
    (fun sh => sh.type = .«section» → sh.loc.endLine = sh.loc.startLine)
    opts text
    (by intro m k h; simp [vrShallow] at h)
    (by
      intro L hL h
      simp [createConfigNode, ConfigNode.shallow])
  intro n hn hty
  have h := main n.shallow (List.mem_map_of_mem _ hn)
    (by rw [shallow_type]; exact hty)
  rwa [shallow_loc] at h

/-- Witness for C1: the section of `cexTextNest` satisfies the corrected
statement at a concrete input. -/
theorem C1_section_endLine_witness :
    secNode1 ∈ preorderList (parse defaultOptions cexTextNest) ∧
      secNode1.type = .«section» ∧
      secNode1.loc.endLine = secNode1.loc.startLine := by
  have hm : secNode1 ∈ preorderList (parse defaultOptions cexTextNest) := by
    rw [show preorderList (parse defaultOptions cexTextNest) =
      [secNode1, cmdNode1] from rfl]
    exact List.mem_cons_self _ _
  exact ⟨hm, rfl,
    C1_section_endLine_eq_startLine defaultOptions cexTextNest secNode1 hm rfl⟩

/-- C3 counterexample: flattening the parse forest of `"no shutdown"` in
pre-order and reading *every* node's `rawText` yields
`["virtual_root", "no shutdown"]`, not the surviving input lines: the
synthetic virtual root contributes the extra raw text `"virtual_root"`. -/
theorem C3_counterexample :
    (preorderList (parse defaultOptions cexTextOrphan)).map ConfigNode.rawText ≠
      survivingLines cexTextOrphan.data := by
  decide

/-- C3 (corrected): pre-order raw texts of the non-`virtual_root` nodes of
the forest returned by `parse` reproduce exactly the non-empty, non-comment
lines of the input, in original order. -/
theorem C3_raw_roundtrip (opts : ParserOptions) (text : String) :
    (preorderList (parse opts text)).filterMap rawIfNotVirtual =
      survivingLines text.data := by
  show nvRaws (parse opts text) = _
  unfold parse
  rw [nvRaws_applyVirtualContext, nvRaws_runMainPass, lineContexts_originals]

theorem toNat_ofNat_lower (n : Nat) (h1 : 97 ≤ n) (h2 : n ≤ 122) :
    (Char.ofNat n).toNat = n := by
  have hv : n.isValidChar := Or.inl (by omega)
  simp [Char.ofNat, hv, Char.ofNatAux, Char.toNat, UInt32.toNat]

theorem toLowerAscii_of_ws (c : Char) (h : isWsChar c = true) :
    toLowerAscii c = c := by
  simp [isWsChar] at h
  unfold toLowerAscii
  rw [if_neg (by simp; omega)]

theorem toLower_ne_of_ws (h : Char) (hws : isWsChar h = false) (c : Char)
    (hc : isWsChar c = true) : toLowerAscii h ≠ c := by
  intro heq
  unfold toLowerAscii at heq
  by_cases hr : (65 ≤ h.toNat && h.toNat ≤ 90) = true
  · rw [if_pos hr] at heq
    simp at hr
    have ht : (Char.ofNat (h.toNat + 32)).toNat = h.toNat + 32 :=
      toNat_ofNat_lower _ (by omega) (by omega)
    have hcn : c.toNat = h.toNat + 32 := by rw [← heq, ht]
    simp [isWsChar] at hc
    omega
  · rw [if_neg hr] at heq
    subst heq
    rw [hws] at hc
    cases hc

theorem head_dropWhile_ws (s : List Char) (c : Char)
    (h : (s.dropWhile isWsChar).head? = some c) : isWsChar c = false := by
  have := List.head?_dropWhile_not isWsChar s
  rw [h] at this
  simpa using this

theorem head_trimWs_not_ws (s : List Char) (c : Char)
    (h : (trimWs s).head? = some c) : isWsChar c = false := by
  unfold trimWs at h
  rw [List.head?_reverse] at h
  have hbne : (s.dropWhile isWsChar).reverse.dropWhile isWsChar ≠ [] := by
    intro hbnil
    rw [hbnil] at h
    cases h
  have hsplit :
      (s.dropWhile isWsChar).reverse.takeWhile isWsChar ++
        (s.dropWhile isWsChar).reverse.dropWhile isWsChar =
      (s.dropWhile isWsChar).reverse :=
    List.takeWhile_append_dropWhile isWsChar _
  have h2 : (s.dropWhile isWsChar).reverse.getLast? = some c := by
    rw [← hsplit, List.getLast?_append_of_ne_nil _ hbne]
    exact h
  rw [List.getLast?_reverse] at h2
  exact head_dropWhile_ws s c h2

theorem head_sanitize_not_ws (l : List Char) (c : Char)
    (h : (sanitizeText l).head? = some c) : isWsChar c = false :=
  head_trimWs_not_ws _ c h

theorem sanitized_of_mem_lineContexts {k : Nat} {text : List Char}
    {L : ParsedLine} (h : L ∈ lineContexts k text) :
    L.sanitized = sanitizeText L.original := by
  unfold lineContexts at h
  obtain ⟨p, _, hmk⟩ := List.mem_filterMap.mp h
  unfold mkParsedLine at hmk
  simp only [] at hmk
  by_cases hcond : (decide ((sanitizeText p.2).length = 0) ||
      decide ((sanitizeText p.2).head? = some '!')) = true
  · rw [if_pos hcond] at hmk
    cases hmk
  · rw [if_neg hcond] at hmk
    injection hmk with hmk
    subst hmk
    rfl

/-- Every node id in a parse forest begins with a non-whitespace character:
line nodes carry a trimmed id, virtual roots the literal
`virtual_root_line_<n>`. -/
theorem parse_id_head_not_ws (opts : ParserOptions) (text : String) :
    ∀ n ∈ preorderList (parse opts text), ∀ c,
      n.id.data.head? = some c → isWsChar c = false := by
  have main := parse_shallow_sound
    (fun sh => ∀ c, sh.id.data.head? = some c → isWsChar c = false) opts text
    (by
      intro m k c hc
      have hv : (vrShallow opts.source m k).id.data.head? = some 'v' := rfl
      rw [hv] at hc
      injection hc with hc
      subst hc
      decide)
    (by
      intro L hL c hc
      have hs := sanitized_of_mem_lineContexts hL
      have hc' : (sanitizeText L.original).head? = some c := by
        rw [← hs]
        exact hc
      exact head_sanitize_not_ws L.original c hc')
  intro n hn c hc
  exact main n.shallow (List.mem_map_of_mem _ hn) c
    (by rw [shallow_id]; exact hc)

theorem lowerStr_data (s : String) :
    (lowerStr s).data = s.data.map toLowerAscii := rfl

/-- C2 counterexample: `matchesSelector` is a plain case-insensitive
`startsWith` with no trailing-boundary clause, so a rule with selector
`"ip"` *does* match a node with id `"ipv6 address 2001::1/64"`, contrary to
the claim. -/
theorem C2_counterexample :
    RuleEngine.matchesSelector ipv6Node (some "ip") = true := by decide

/-- C2 (corrected): for every node and non-empty selector, the match holds
iff `lowercase(node.id)` starts with `lowercase(selector)` — with no
end-of-string / whitespace boundary requirement; in particular `"ip"`
matches both `"ipv6 address 2001::1/64"` and
`"ip address 10.0.0.1 255.255.255.0"`. -/
theorem C2_selector_plain_startsWith :
    (∀ (node : ConfigNode) (sel : String), sel ≠ "" →
      RuleEngine.matchesSelector node (some sel) =
        (lowerStr sel).data.isPrefixOf (lowerStr node.id).data) ∧
    RuleEngine.matchesSelector ipv6Node (some "ip") = true ∧
    RuleEngine.matchesSelector ipv4Node (some "ip") = true := by
  refine ⟨?_, by decide, by decide⟩
  intro node sel h
  have hne : sel.data ≠ [] := by
    intro hd
    apply h
    cases sel with
    | mk d => simp at hd; simp [hd]
  show (if sel.data.length = 0 then true
    else (lowerStr sel).data.isPrefixOf (lowerStr node.id).data) = _
  rw [if_neg (fun h0 => hne (List.length_eq_zero.mp h0))]

/-- Witness for C2 at a concrete node and selector. -/
theorem C2_selector_witness :
    ("ip" : String) ≠ "" ∧
      RuleEngine.matchesSelector ipv4Node (some "ip") =
        (lowerStr "ip").data.isPrefixOf (lowerStr ipv4Node.id).data :=
  ⟨by decide, C2_selector_plain_startsWith.1 ipv4Node "ip" (by decide)⟩

/-- C4 counterexample: the flat snippet produces *three* root nodes, not
two — at equal indent the `ip address` line pops the `Gi0/1` section
(indentation break, `L.indent ≤ T.indent`), lands at top level and is then
wrapped in a virtual root. -/
theorem C4_counterexample :
    (parse defaultOptions cexTextFlat).length ≠ 2 := by decide

/-- C4 (corrected): parsing the flat snippet yields three roots — the
`Gi0/1` section with no children, a virtual root wrapping the orphaned
`ip address` command, and the `Gi0/2` section. -/
theorem C4_flat_snippet_forest :
    parse defaultOptions cexTextFlat =
      [ .mk "interface Gi0/1" .«section» "interface Gi0/1"
          ["interface", "Gi0/1"] [] .base ⟨0, 0⟩ (some 0),
        .mk "virtual_root_line_1" .virtual_root "virtual_root"
          ["virtual_root"]
          [ .mk "ip address 10.0.0.1 255.255.255.0" .command
              "ip address 10.0.0.1 255.255.255.0"
              ["ip", "address", "10.0.0.1", "255.255.255.0"] [] .base
              ⟨1, 1⟩ (some 0) ]
          .base ⟨1, 1⟩ none,
        .mk "interface Gi0/2" .«section» "interface Gi0/2"
          ["interface", "Gi0/2"] [] .base ⟨2, 2⟩ (some 0) ] := rfl

/-- C8 counterexample: a rule whose selector is the empty string *is*
invoked by `run` on every node (`!selector` is true for `""`, which
`matchesSelector` sends to `true`), so "matches no node / never invoked"
fails. -/
theorem C8_counterexample :
    RuleEngine.run [orphanCmdNode] [emptySelRule] =
      [⟨true, "empty selector ran", "R-EMPTY", "no shutdown", .info, none,
        some ⟨0, 0⟩⟩] := rfl

/-- C8 (corrected): a present-but-empty selector matches every node
(exactly like an absent selector), while a selector whose first character
is whitespace matches no node of any parse forest (node ids never start
with whitespace); no error is raised in either case. -/
theorem C8_selector_edge_cases :
    (∀ node : ConfigNode, RuleEngine.matchesSelector node (some "") = true) ∧
    (∀ (opts : ParserOptions) (text : String) (node : ConfigNode)
        (sel : String) (c : Char),
      node ∈ preorderList (parse opts text) → sel.data.head? = some c →
      isWsChar c = true → RuleEngine.matchesSelector node (some sel) = false) := by
  constructor
  · intro node; rfl
  · intro opts text node sel c hmem hhead hws
    show (if sel.data.length = 0 then true
      else (lowerStr sel).data.isPrefixOf (lowerStr node.id).data) = false
    cases hsel : sel.data with
    | nil => rw [hsel] at hhead; cases hhead
    | cons c0 cs =>
      rw [hsel] at hhead
      injection hhead with hc0
      subst hc0
      rw [if_neg (by simp [hsel])]
      rw [lowerStr_data, lowerStr_data, hsel]
      cases hid : node.id.data with
      | nil => simp [List.isPrefixOf]
      | cons h0 t0 =>
        have hh0 : isWsChar h0 = false :=
          parse_id_head_not_ws opts text node hmem h0 (by rw [hid]; rfl)
        simp only [List.map_cons]
        rw [toLowerAscii_of_ws c0 hws]
        cases hpre : (c0 :: cs.map toLowerAscii).isPrefixOf
            (toLowerAscii h0 :: t0.map toLowerAscii) with
        | false => rfl
        | true =>
          simp [List.isPrefixOf] at hpre
          exact absurd hpre.1.symm (toLower_ne_of_ws h0 hh0 c0 hws)

/-- Witness for C8 at a concrete parse forest, node and selectors. -/
theorem C8_selector_witness :
    RuleEngine.matchesSelector orphanCmdNode (some "") = true ∧
      orphanCmdNode ∈ preorderList (parse defaultOptions cexTextOrphan) ∧
      (" ip" : String).data.head? = some ' ' ∧ isWsChar ' ' = true ∧
      RuleEngine.matchesSelector orphanCmdNode (some " ip") = false := by
  have hm : orphanCmdNode ∈ preorderList (parse defaultOptions cexTextOrphan) := by
    rw [show preorderList (parse defaultOptions cexTextOrphan) =
      [vrNodeOrphan, orphanCmdNode] from rfl]
    simp
  exact ⟨C8_selector_edge_cases.1 orphanCmdNode, hm, rfl, by decide,
    C8_selector_edge_cases.2 defaultOptions cexTextOrphan orphanCmdNode
      " ip" ' ' hm rfl (by decide)⟩

/-- C9: the sequence returned by `run` is the flattened depth-first
pre-order walk of the forest with rule order within each node, and a
selector-less always-passing rule yields exactly one result per node
(virtual roots included, since they are ordinary forest nodes). -/
theorem C9_run_preorder :
    (∀ (nodes : List ConfigNode) (rules : List IRule),
      RuleEngine.run nodes rules =
        (preorderList nodes).flatMap fun m =>
          rules.filterMap (RuleEngine.applyRule ⟨nodes⟩ m)) ∧
    (∀ (nodes : List ConfigNode) (r : IRule), r.selector = none →
      (∀ n ctx, ∃ res, r.check n ctx = .ok res ∧ res.passed = true) →
      (RuleEngine.run nodes [r]).length = (preorderList nodes).length) := by
  constructor
  · exact run_eq_bind
  · intro nodes r hsel hok
    rw [run_eq_bind]
    generalize preorderList nodes = ms
    induction ms with
    | nil => rfl
    | cons m ms ih =>
      rw [List.flatMap_cons, List.length_append, ih]
      obtain ⟨res, hres, _⟩ := hok m ⟨nodes⟩
      have h1 : ([r].filterMap (RuleEngine.applyRule ⟨nodes⟩ m)).length = 1 := by
        simp [List.filterMap, RuleEngine.applyRule, RuleEngine.matchesSelector,
          hsel, hres]
      rw [h1]
      simp [Nat.add_comm]

/-- Witness for C9: a concrete always-passing selector-less rule over a
forest containing a virtual root. -/
theorem C9_run_preorder_witness :
    passRule.selector = none ∧
      (RuleEngine.run (parse defaultOptions cexTextOrphan) [passRule]).length =
        (preorderList (parse defaultOptions cexTextOrphan)).length :=
  ⟨rfl, C9_run_preorder.2 (parse defaultOptions cexTextOrphan) passRule rfl
    (fun _n _ctx => ⟨_, rfl, rfl⟩)⟩

/-- C7: if a rule's check terminates abnormally while `run` visits node
`N`, the visit of `N` under that rule contributes exactly the synthesized
failing result — `passed = false`, `level = error`, the rule's id, `N`'s id
and `N`'s `loc` — and `run` still equals the full flattened walk over all
nodes and rules (nothing is truncated, and `run`, being a total function,
never throws). -/
theorem C7_failure_barrier (nodes : List ConfigNode) (rules : List IRule)
    (r : IRule) (N : ConfigNode) (e : String)
    (herr : r.check N ⟨nodes⟩ = .error e)
    (hmatch : RuleEngine.matchesSelector N r.selector = true) :
    RuleEngine.applyRule ⟨nodes⟩ N r =
      some ⟨false, "Rule execution error: " ++ e, r.id, N.id, .error, none,
        some N.loc⟩ ∧
    RuleEngine.run nodes rules =
      (preorderList nodes).flatMap fun m =>
        rules.filterMap (RuleEngine.applyRule ⟨nodes⟩ m) := by
  refine ⟨?_, run_eq_bind nodes rules⟩
  simp [RuleEngine.applyRule, hmatch, herr]

/-- Witness for C7: a concrete rule that throws on a concrete node. -/
theorem C7_failure_barrier_witness :
    failRule.check orphanCmdNode ⟨[orphanCmdNode]⟩ = .error "boom" ∧
      RuleEngine.matchesSelector orphanCmdNode failRule.selector = true ∧
      (RuleEngine.applyRule ⟨[orphanCmdNode]⟩ orphanCmdNode failRule =
        some ⟨false, "Rule execution error: " ++ "boom", failRule.id,
          orphanCmdNode.id, .error, none, some orphanCmdNode.loc⟩ ∧
      RuleEngine.run [orphanCmdNode] [failRule] =
        (preorderList [orphanCmdNode]).flatMap fun m =>
          [failRule].filterMap (RuleEngine.applyRule ⟨[orphanCmdNode]⟩ m)) :=
  ⟨rfl, rfl, C7_failure_barrier [orphanCmdNode] [failRule] failRule
    orphanCmdNode "boom" rfl rfl⟩

theorem foldl_addToVirtualRoot :
    ∀ (run : List ConfigNode) (i : String) (t : NodeType) (r : String)
      (pr : List String) (cs : List ConfigNode) (s : Source) (l : Loc)
      (d : Option Nat),
      run.foldl addToVirtualRoot (.mk i t r pr cs s l d) =
        .mk i t r pr (cs ++ run) s
          ⟨l.startLine, run.foldl (fun a c => max a c.loc.endLine) l.endLine⟩
          d := by
  intro run
  induction run with
  | nil =>
    intro i t r pr cs s l d
    cases l
    simp
  | cons x xs ih =>
    intro i t r pr cs s l d
    simp only [List.foldl_cons, addToVirtualRoot]
    rw [ih]
    simp

theorem avcGo_some_eq (src : Source) :
    ∀ (ns : List ConfigNode) (vr : ConfigNode),
      avcGo src ns (some vr) =
        ((ns.takeWhile isCmd).foldl addToVirtualRoot vr) ::
          avcGo src (ns.dropWhile isCmd) none := by
  intro ns
  induction ns with
  | nil => intro vr; rfl
  | cons n rest ih =>
    intro vr
    by_cases h : n.type = .command
    · rw [show avcGo src (n :: rest) (some vr) =
          avcGo src rest (some (addToVirtualRoot vr n)) by simp [avcGo, h]]
      rw [ih (addToVirtualRoot vr n)]
      rw [show (n :: rest).takeWhile isCmd = n :: rest.takeWhile isCmd by
        simp [List.takeWhile_cons, isCmd, h]]
      rw [show (n :: rest).dropWhile isCmd = rest.dropWhile isCmd by
        simp [List.dropWhile_cons, isCmd, h]]
      simp
    · rw [show avcGo src (n :: rest) (some vr) =
          vr :: n :: avcGo src rest none by simp [avcGo, h]]
      rw [show (n :: rest).takeWhile isCmd = [] by
        simp [List.takeWhile_cons, isCmd, h]]
      rw [show (n :: rest).dropWhile isCmd = n :: rest by
        simp [List.dropWhile_cons, isCmd, h]]
      rw [show avcGo src (n :: rest) none = n :: avcGo src rest none by
        simp [avcGo, h]]
      rfl

theorem avcGo_none_eq_groupRunsSpec (src : Source) :
    (ns : List ConfigNode) → avcGo src ns none = groupRunsSpec src ns
  | [] => by simp [groupRunsSpec]; rfl
  | n :: rest => by
    by_cases h : n.type = .command
    · rw [show avcGo src (n :: rest) none =
          avcGo src rest (some (newVirtualRoot src n)) by simp [avcGo, h]]
      rw [avcGo_some_eq]
      rw [show groupRunsSpec src (n :: rest) =
          mkVirtualRootSpec src n (n :: rest.takeWhile isCmd) ::
            groupRunsSpec src (rest.dropWhile isCmd) by
        simp [groupRunsSpec, isCmd, h]]
      rw [avcGo_none_eq_groupRunsSpec src (rest.dropWhile isCmd)]
      congr 1
      rw [show newVirtualRoot src n =
        .mk (vrId n.loc.startLine) .virtual_root "virtual_root"
          ["virtual_root"] [n] src ⟨n.loc.startLine, n.loc.endLine⟩ none
        from rfl]
      rw [foldl_addToVirtualRoot]
      rw [show mkVirtualRootSpec src n (n :: rest.takeWhile isCmd) =
        .mk (vrId n.loc.startLine) .virtual_root "virtual_root"
          ["virtual_root"] (n :: rest.takeWhile isCmd) src
          ⟨n.loc.startLine, maxEndLine (n :: rest.takeWhile isCmd)⟩ none
        from rfl]
      simp only [List.singleton_append]
      congr 1
      simp [maxEndLine, List.foldl_cons]
    · rw [show avcGo src (n :: rest) none = n :: avcGo src rest none by
        simp [avcGo, h]]
      rw [show groupRunsSpec src (n :: rest) = n :: groupRunsSpec src rest by
        simp [groupRunsSpec, isCmd, h]]
      rw [avcGo_none_eq_groupRunsSpec src rest]
termination_by ns => ns.length
decreasing_by
  · simp only [List.length_cons]
    exact Nat.lt_succ_of_le (List.Sublist.length_le (List.dropWhile_sublist _))
  · simp

theorem countP_groupRunsSpec (src : Source) :
    (ns : List ConfigNode) → (∀ n ∈ ns, n.type ≠ .virtual_root) →
      (groupRunsSpec src ns).countP isVR = countRuns ns
  | [] => by intro _; simp [groupRunsSpec, countRuns]
  | n :: rest => by
    intro hns
    by_cases h : isCmd n = true
    · rw [show groupRunsSpec src (n :: rest) =
          mkVirtualRootSpec src n (n :: rest.takeWhile isCmd) ::
            groupRunsSpec src (rest.dropWhile isCmd) by
        simp [groupRunsSpec, h]]
      rw [show countRuns (n :: rest) = countRuns (rest.dropWhile isCmd) + 1 by
        simp [countRuns, h]]
      rw [List.countP_cons]
      rw [countP_groupRunsSpec src (rest.dropWhile isCmd)
        (fun m hm => hns m (List.mem_cons_of_mem _
          ((List.dropWhile_sublist isCmd).mem hm)))]
      rfl
    · rw [show groupRunsSpec src (n :: rest) = n :: groupRunsSpec src rest by
        simp [groupRunsSpec, h]]
      rw [show countRuns (n :: rest) = countRuns rest by simp [countRuns, h]]
      rw [List.countP_cons]
      rw [countP_groupRunsSpec src rest
        (fun m hm => hns m (List.mem_cons_of_mem _ hm))]
      have : isVR n = false := by
        have := hns n (List.mem_cons_self _ _)
        simp [isVR, this]
      simp [this]
termination_by ns => ns.length
decreasing_by
  · simp only [List.length_cons]
    exact Nat.lt_succ_of_le (List.Sublist.length_le (List.dropWhile_sublist _))
  · simp

theorem countRuns_pos_iff :
    (ns : List ConfigNode) →
      (0 < countRuns ns ↔ ∃ n ∈ ns, n.type = .command)
  | [] => by simp [countRuns]
  | n :: rest => by
    by_cases h : isCmd n = true
    · rw [show countRuns (n :: rest) = countRuns (rest.dropWhile isCmd) + 1 by
        simp [countRuns, h]]
      exact iff_of_true (by omega)
        ⟨n, List.mem_cons_self _ _, by simpa [isCmd] using h⟩
    · rw [show countRuns (n :: rest) = countRuns rest by simp [countRuns, h]]
      rw [countRuns_pos_iff rest]
      constructor
      · rintro ⟨m, hm, ht⟩
        exact ⟨m, List.mem_cons_of_mem _ hm, ht⟩
      · rintro ⟨m, hm, ht⟩
        rcases List.mem_cons.mp hm with hgo | hm'
        · subst hgo
          exact absurd ht (by simpa [isCmd] using h)
        · exact ⟨m, hm', ht⟩

theorem mainRoots_types (opts : ParserOptions) (text : String) :
    ∀ n ∈ mainRoots opts text, n.type ≠ .virtual_root := by
  intro n hn
  have hsh : n.shallow ∈ shallowPre (mainRoots opts text) :=
    List.mem_map_of_mem _ (mem_preorderList_of_mem hn)
  rw [mainRoots, shallowPre_runMainPass] at hsh
  obtain ⟨L, _, heq⟩ := List.mem_map.mp hsh
  intro hvr
  have hty : n.shallow.type = nodeTypeOf L := by
    rw [← heq]
    by_cases hbs : L.isBlockStarter = true <;>
      simp [createConfigNode, ConfigNode.shallow, nodeTypeOf, hbs]
  rw [shallow_type, hvr] at hty
  by_cases hbs : L.isBlockStarter = true <;> simp [nodeTypeOf, hbs] at hty

/-- C6: the forest returned by `parse` is exactly the claim's description
of the virtual-root wrapper applied to the main-pass forest — every maximal
run of consecutive top-level commands replaced by one virtual root whose
children are the run, with the claimed id and loc span, sections unchanged
and breaking runs; there is one virtual root per maximal run, and some
virtual root exists iff some top-level command exists. -/
theorem C6_virtual_root_wrapper (opts : ParserOptions) (text : String) :
    parse opts text = groupRunsSpec opts.source (mainRoots opts text) ∧
    (parse opts text).countP isVR = countRuns (mainRoots opts text) ∧
    ((∃ n ∈ parse opts text, n.type = .virtual_root) ↔
      ∃ n ∈ mainRoots opts text, n.type = .command) := by
  have h1 : parse opts text = groupRunsSpec opts.source (mainRoots opts text) :=
    avcGo_none_eq_groupRunsSpec opts.source (mainRoots opts text)
  have hcnt := countP_groupRunsSpec opts.source (mainRoots opts text)
    (mainRoots_types opts text)
  refine ⟨h1, by rw [h1]; exact hcnt, ?_⟩
  rw [h1]
  constructor
  · rintro ⟨m, hm, ht⟩
    have hp : 0 < (groupRunsSpec opts.source (mainRoots opts text)).countP isVR :=
      List.countP_pos_iff.mpr ⟨m, hm, by simp [isVR, ht]⟩
    rw [hcnt] at hp
    exact (countRuns_pos_iff _).mp hp
  · intro hex
    have hp := (countRuns_pos_iff _).mpr hex
    rw [← hcnt] at hp
    obtain ⟨m, hm, ht⟩ := List.countP_pos_iff.mp hp
    exact ⟨m, hm, by simpa [isVR] using ht⟩

theorem pairsOkN_eq (c : ConfigNode) :
    pairsOkN c =
      ((c.children.all fun x => pairOkB c.shallow x.shallow) &&
        pairsOkL c.children) := by
  cases c; rfl

theorem pairsOkL_cons (c : ConfigNode) (cs : List ConfigNode) :
    pairsOkL (c :: cs) = (pairsOkN c && pairsOkL cs) := rfl

theorem pairsOkL_append :
    ∀ l₁ l₂ : List ConfigNode,
      pairsOkL (l₁ ++ l₂) = (pairsOkL l₁ && pairsOkL l₂) := by
  intro l₁ l₂
  induction l₁ with
  | nil => simp [pairsOkL]
  | cons c cs ih => simp [pairsOkL_cons, ih, Bool.and_assoc]

theorem pairsOkL_mem {cs : List ConfigNode} {x : ConfigNode}
    (h : pairsOkL cs = true) (hx : x ∈ cs) : pairsOkN x = true := by
  induction cs with
  | nil => cases hx
  | cons c cs' ih =>
    rw [pairsOkL_cons, Bool.and_eq_true] at h
    rcases List.mem_cons.mp hx with rfl | hx'
    · exact h.1
    · exact ih h.2 hx'

theorem appendAtSpine_shallow (k : Nat) (c n : ConfigNode) :
    (appendAtSpine k c n).shallow = c.shallow := by
  cases k <;> cases c <;> rfl

theorem entryAgrees_appendAtSpine (e : StackEntry) (k : Nat)
    (c n : ConfigNode) :
    entryAgrees e (appendAtSpine k c n) = entryAgrees e c := by
  cases k <;> cases c <;> rfl

theorem pairOkB_shallow_appendAtSpine (k : Nat) (c n x : ConfigNode) :
    pairOkB (appendAtSpine k c n).shallow x.shallow =
      pairOkB c.shallow x.shallow := by
  rw [appendAtSpine_shallow]

theorem pairOkB_of_entry {e : StackEntry} {P : ConfigNode}
    {sh : ShallowNode} (ha : entryAgrees e P = true)
    (hp : pairOkE e sh = true) : pairOkB P.shallow sh = true := by
  rw [entryAgrees, Bool.and_eq_true, decide_eq_true_eq, decide_eq_true_eq]
    at ha
  rw [pairOkE, Bool.or_eq_true, decide_eq_true_eq] at hp
  rw [pairOkB, Bool.or_eq_true, decide_eq_true_eq]
  rcases hp with hp | hp
  · left
    rw [shallow_type, ha.2, hp]
  · right
    rw [shallow_indent, ha.1]
    cases hsh : sh.indent with
    | none => rw [hsh] at hp; cases hp
    | some ci =>
      rw [hsh] at hp
      simpa using hp

theorem updLastD_getLast? (f : ConfigNode → ConfigNode) (x0 : ConfigNode) :
    ∀ (cs : List ConfigNode) (d : ConfigNode), cs.getLast? = some d →
      (updLastD f x0 cs).getLast? = some (f d) := by
  intro cs
  induction cs with
  | nil => intro d h; cases h
  | cons c cs' ih =>
    intro d h
    cases cs' with
    | nil =>
      simp at h
      subst h
      rfl
    | cons c₂ cs'' =>
      rw [List.getLast?_cons_cons] at h
      have hne : updLastD f x0 (c₂ :: cs'') ≠ [] := by
        cases cs'' <;> simp [updLastD]
      obtain ⟨u, us, hu⟩ := List.exists_cons_of_ne_nil hne
      rw [show updLastD f x0 (c :: c₂ :: cs'') =
        c :: updLastD f x0 (c₂ :: cs'') from rfl, hu,
        List.getLast?_cons_cons, ← hu]
      exact ih d h

theorem mem_updLastD_last (f : ConfigNode → ConfigNode) (x0 : ConfigNode) :
    ∀ (cs : List ConfigNode) (d : ConfigNode), cs.getLast? = some d →
      f d ∈ updLastD f x0 cs := by
  intro cs
  induction cs with
  | nil => intro d h; cases h
  | cons c cs' ih =>
    intro d h
    cases cs' with
    | nil =>
      simp at h
      subst h
      exact List.mem_singleton.mpr rfl
    | cons c₂ cs'' =>
      rw [List.getLast?_cons_cons] at h
      exact List.mem_cons_of_mem _ (ih d h)

theorem all_updLastD (q : ConfigNode → Bool) (f : ConfigNode → ConfigNode)
    (hq : ∀ x, q (f x) = q x) (x0 : ConfigNode) :
    ∀ cs : List ConfigNode, cs ≠ [] → cs.all q = true →
      (updLastD f x0 cs).all q = true := by
  intro cs
  induction cs with
  | nil => intro h; cases h rfl
  | cons c cs' ih =>
    intro _ hall
    rw [List.all_cons, Bool.and_eq_true] at hall
    cases cs' with
    | nil =>
      rw [show updLastD f x0 [c] = [f c] from rfl]
      simp [hq, hall.1]
    | cons c₂ cs'' =>
      rw [show updLastD f x0 (c :: c₂ :: cs'') =
        c :: updLastD f x0 (c₂ :: cs'') from rfl]
      rw [List.all_cons, Bool.and_eq_true]
      exact ⟨hall.1, ih (by simp) hall.2⟩

theorem pairsOkL_updLastD (f : ConfigNode → ConfigNode) (x0 : ConfigNode) :
    ∀ (cs : List ConfigNode) (d : ConfigNode), cs.getLast? = some d →
      pairsOkL cs = true → pairsOkN (f d) = true →
      pairsOkL (updLastD f x0 cs) = true := by
  intro cs
  induction cs with
  | nil => intro d h; cases h
  | cons c cs' ih =>
    intro d h hok hfd
    rw [pairsOkL_cons, Bool.and_eq_true] at hok
    cases cs' with
    | nil =>
      simp at h
      subst h
      rw [show updLastD f x0 [c] = [f c] from rfl, pairsOkL_cons]
      simp [hfd, pairsOkL]
    | cons c₂ cs'' =>
      rw [List.getLast?_cons_cons] at h
      rw [show updLastD f x0 (c :: c₂ :: cs'') =
        c :: updLastD f x0 (c₂ :: cs'') from rfl]
      rw [pairsOkL_cons, Bool.and_eq_true]
      exact ⟨hok.1, ih d h hok.2 hfd⟩

theorem mem_preorderList_of_mem_preorderNode
    {P x : ConfigNode} {l : List ConfigNode} (hx : x ∈ l)
    (hP : P ∈ preorderNode x) : P ∈ preorderList l := by
  induction l with
  | nil => cases hx
  | cons c cs ih =>
    rw [preorderList_cons]
    rcases List.mem_cons.mp hx with rfl | hx'
    · exact List.mem_append_left _ hP
    · exact List.mem_append_right _ (ih hx')

theorem spineMatchB_cons_iff (e : StackEntry) (es : List StackEntry)
    (c : ConfigNode) :
    spineMatchB (e :: es) c = true ↔
      (entryAgrees e c = true ∧
        (es = [] ∨ ∃ d, c.children.getLast? = some d ∧
          spineMatchB es d = true)) := by
  cases es with
  | nil => simp [spineMatchB]
  | cons e₂ es' =>
    cases hg : c.children.getLast? with
    | none => simp [spineMatchB, hg]
    | some d => simp [spineMatchB, hg]

theorem spineMatchB_append_left :
    ∀ (l₁ l₂ : List StackEntry) (c : ConfigNode),
      spineMatchB (l₁ ++ l₂) c = true → spineMatchB l₁ c = true := by
  intro l₁
  induction l₁ with
  | nil => intro l₂ c _; rfl
  | cons e es ih =>
    intro l₂ c h
    rw [List.cons_append, spineMatchB_cons_iff] at h
    rw [spineMatchB_cons_iff]
    obtain ⟨ha, hrest⟩ := h
    refine ⟨ha, ?_⟩
    cases es with
    | nil => exact Or.inl rfl
    | cons x xs =>
      rcases hrest with habs | ⟨d, hd, hsd⟩
      · simp at habs
      · exact Or.inr ⟨d, hd, ih l₂ d hsd⟩

/-- Attaching a fresh leaf at the end of the rightmost spine: the spine
(extended by the new entry) still matches, all parent/child pairs stay
intact — the one new pair being justified by the stack entry of the attach
point — and the new leaf is a child of a node agreeing with that entry. -/
theorem appendAtSpine_attach (n : ConfigNode) (en : StackEntry)
    (hen : entryAgrees en n = true) (hpn : pairsOkN n = true) :
    ∀ (es : List StackEntry) (e : StackEntry) (c : ConfigNode),
      spineMatchB (es ++ [e]) c = true →
      pairOkE e n.shallow = true →
      pairsOkN c = true →
      spineMatchB ((es ++ [e]) ++ [en]) (appendAtSpine es.length c n) = true ∧
      pairsOkN (appendAtSpine es.length c n) = true ∧
      ∃ P ∈ preorderNode (appendAtSpine es.length c n),
        entryAgrees e P = true ∧ n ∈ P.children := by
  intro es
  induction es with
  | nil =>
    intro e c hsm hpe hpc
    cases c with
    | mk i t r pr cs s l dd =>
      have hag : entryAgrees e (ConfigNode.mk i t r pr cs s l dd) = true :=
        ((spineMatchB_cons_iff e [] _).mp hsm).1
      rw [show ([] : List StackEntry).length = 0 from rfl,
        show appendAtSpine 0 (ConfigNode.mk i t r pr cs s l dd) n =
          ConfigNode.mk i t r pr (cs ++ [n]) s l dd from rfl]
      refine ⟨?_, ?_, ?_⟩
      · rw [show (([] : List StackEntry) ++ [e]) ++ [en] = e :: [en] from rfl,
          spineMatchB_cons_iff]
        refine ⟨hag, Or.inr ⟨n, ?_, ?_⟩⟩
        · show (cs ++ [n]).getLast? = some n
          exact List.getLast?_concat cs
        · rw [spineMatchB_cons_iff]
          exact ⟨hen, Or.inl rfl⟩
      · rw [pairsOkN_eq] at hpc ⊢
        rw [Bool.and_eq_true] at hpc
        rw [Bool.and_eq_true]
        constructor
        · show (cs ++ [n]).all _ = true
          rw [List.all_append, Bool.and_eq_true]
          refine ⟨hpc.1, ?_⟩
          rw [List.all_cons, List.all_nil, Bool.and_true]
          exact pairOkB_of_entry hag hpe
        · show pairsOkL (cs ++ [n]) = true
          rw [pairsOkL_append, Bool.and_eq_true]
          exact ⟨hpc.2, by rw [pairsOkL_cons]; simp [hpn, pairsOkL]⟩
      · refine ⟨ConfigNode.mk i t r pr (cs ++ [n]) s l dd,
          self_mem_preorderNode _, hag, ?_⟩
        show n ∈ cs ++ [n]
        exact List.mem_append_right _ (List.mem_singleton.mpr rfl)
  | cons e0 es' ih =>
    intro e c hsm hpe hpc
    cases c with
    | mk i t r pr cs s l dd =>
      rw [List.cons_append, spineMatchB_cons_iff] at hsm
      obtain ⟨hag, hrest⟩ := hsm
      rcases hrest with habs | ⟨d, hd, hsd⟩
      · simp at habs
      · have hd' : cs.getLast? = some d := hd
        have hcs_ne : cs ≠ [] := by
          intro h0
          rw [h0] at hd'
          cases hd'
        rw [pairsOkN_eq, Bool.and_eq_true] at hpc
        have hdmem : d ∈ cs := by
          refine List.mem_of_mem_getLast? ?_
          rw [hd']
          rfl
        have hpd : pairsOkN d = true := pairsOkL_mem hpc.2 hdmem
        obtain ⟨sm', pairs', P, hPmem, hPag, hPn⟩ := ih e d hsd hpe hpd
        rw [show (e0 :: es').length = es'.length + 1 from rfl,
          show appendAtSpine (es'.length + 1)
              (ConfigNode.mk i t r pr cs s l dd) n =
            ConfigNode.mk i t r pr
              (updLastD (fun x => appendAtSpine es'.length x n) n cs) s l dd
            from rfl]
        refine ⟨?_, ?_, ?_⟩
        · rw [show ((e0 :: es') ++ [e]) ++ [en] =
            e0 :: ((es' ++ [e]) ++ [en]) by simp,
            spineMatchB_cons_iff]
          refine ⟨hag, Or.inr
            ⟨appendAtSpine es'.length d n, ?_, ?_⟩⟩
          · show (updLastD (fun x => appendAtSpine es'.length x n) n
              cs).getLast? = _
            exact updLastD_getLast? _ n cs d hd'
          · exact sm'
        · rw [pairsOkN_eq, Bool.and_eq_true]
          constructor
          · show (updLastD (fun x => appendAtSpine es'.length x n) n cs).all
              _ = true
            refine all_updLastD _ _ ?_ n cs hcs_ne hpc.1
            intro x
            show pairOkB _ (appendAtSpine es'.length x n).shallow =
              pairOkB _ x.shallow
            rw [appendAtSpine_shallow]
          · exact pairsOkL_updLastD _ n cs d hd' hpc.2 pairs'
        · refine ⟨P, ?_, hPag, hPn⟩
          rw [preorderNode_eq]
          refine List.mem_cons_of_mem _ ?_
          exact mem_preorderList_of_mem_preorderNode
            (mem_updLastD_last _ n cs d hd') hPmem

theorem entryAgrees_mkEntry (src : Source) (L : ParsedLine) :
    entryAgrees (mkEntry L) (createConfigNode src L) = true := by
  simp [entryAgrees, mkEntry, createConfigNode, ConfigNode.indent,
    ConfigNode.type]

theorem pairsOkN_createConfigNode (src : Source) (L : ParsedLine) :
    pairsOkN (createConfigNode src L) = true := by
  rw [pairsOkN_eq]
  simp [createConfigNode, ConfigNode.children, pairsOkL]

theorem processLine_inv (src : Source) (L : ParsedLine) (st : PState)
    (h1 : stateInvB st = true) (h2 : pairsOkL st.roots = true) :
    stateInvB (processLine src st L) = true ∧
      pairsOkL (processLine src st L).roots = true := by
  cases hkept : popLoop L st.stack with
  | nil =>
    have hPL : processLine src st L =
        ⟨st.roots ++ [createConfigNode src L], [mkEntry L]⟩ := by
      simp only [processLine, hkept]
    rw [hPL]
    constructor
    · have hsm1 : spineMatchB [mkEntry L] (createConfigNode src L) = true := by
        rw [spineMatchB_cons_iff]
        exact ⟨entryAgrees_mkEntry src L, Or.inl rfl⟩
      simp [stateInvB, List.getLast?_concat, hsm1]
    · show pairsOkL (st.roots ++ [createConfigNode src L]) = true
      rw [pairsOkL_append, Bool.and_eq_true]
      refine ⟨h2, ?_⟩
      rw [pairsOkL_cons]
      simp [pairsOkN_createConfigNode, pairsOkL]
  | cons T ts =>
    have hdrop : st.stack.dropWhile (shouldPop L) = T :: ts := by
      rw [← popLoop_eq_dropWhile, hkept]
    have hstack_ne : st.stack ≠ [] := by
      intro h0
      rw [h0] at hkept
      simp [popLoop] at hkept
    obtain ⟨r, hr, hsm⟩ : ∃ r, st.roots.getLast? = some r ∧
        spineMatchB st.stack.reverse r = true := by
      cases hs : st.stack with
      | nil => exact absurd hs hstack_ne
      | cons a as =>
        cases hg : st.roots.getLast? with
        | none =>
          rw [stateInvB, hs, hg] at h1
          cases h1
        | some r =>
          rw [stateInvB, hs, hg] at h1
          exact ⟨r, rfl, by simpa using h1⟩
    have hrev : st.stack.reverse =
        (T :: ts).reverse ++ (st.stack.takeWhile (shouldPop L)).reverse := by
      conv_lhs => rw [← List.takeWhile_append_dropWhile (shouldPop L) st.stack]
      rw [hdrop, List.reverse_append]
    have hsm' : spineMatchB (ts.reverse ++ [T]) r = true := by
      rw [← List.reverse_cons]
      exact spineMatchB_append_left _ _ r (by rw [← hrev]; exact hsm)
    have hT : shouldPop L T = false := by
      have := List.head?_dropWhile_not (shouldPop L) st.stack
      rw [hdrop] at this
      simpa using this
    have hpe : pairOkE T (createConfigNode src L).shallow = true := by
      rw [shouldPop, Bool.or_eq_false_iff, decide_eq_false_iff_not] at hT
      have hlt : T.indent < L.indent := by omega
      rw [pairOkE]
      rw [show (createConfigNode src L).shallow.indent = some L.indent
        from rfl]
      simp [hlt]
    have hpr : pairsOkN r = true :=
      pairsOkL_mem h2 (List.mem_of_mem_getLast? (by rw [hr]; rfl))
    obtain ⟨sm', pairs', -⟩ := appendAtSpine_attach (createConfigNode src L)
      (mkEntry L) (entryAgrees_mkEntry src L)
      (pairsOkN_createConfigNode src L) ts.reverse T r hsm' hpe hpr
    have hlen : (T :: ts).length - 1 = ts.reverse.length := by simp
    have hPL : processLine src st L =
        ⟨updLastD
          (fun x => appendAtSpine ts.reverse.length x (createConfigNode src L))
          (createConfigNode src L) st.roots,
          mkEntry L :: T :: ts⟩ := by
      simp only [processLine, hkept, hlen]
    rw [hPL]
    constructor
    · have hg' := updLastD_getLast?
        (fun x => appendAtSpine ts.reverse.length x (createConfigNode src L))
        (createConfigNode src L) st.roots r hr
      rw [show stateInvB ⟨updLastD
          (fun x => appendAtSpine ts.reverse.length x (createConfigNode src L))
          (createConfigNode src L) st.roots, mkEntry L :: T :: ts⟩ =
        (match (updLastD
          (fun x => appendAtSpine ts.reverse.length x (createConfigNode src L))
          (createConfigNode src L) st.roots).getLast? with
          | some r' => spineMatchB (mkEntry L :: T :: ts).reverse r'
          | none => false) from rfl, hg']
      rw [show (mkEntry L :: T :: ts).reverse =
        (ts.reverse ++ [T]) ++ [mkEntry L] by simp]
      exact sm'
    · exact pairsOkL_updLastD _ _ st.roots r hr h2 pairs'

theorem mainPass_inv (src : Source) :
    ∀ (ls : List ParsedLine) (st : PState), stateInvB st = true →
      pairsOkL st.roots = true →
      stateInvB (ls.foldl (processLine src) st) = true ∧
        pairsOkL (ls.foldl (processLine src) st).roots = true := by
  intro ls
  induction ls with
  | nil => intro st h1 h2; exact ⟨h1, h2⟩
  | cons L rest ih =>
    intro st h1 h2
    obtain ⟨h1', h2'⟩ := processLine_inv src L st h1 h2
    exact ih (processLine src st L) h1' h2'

theorem mainRoots_pairsOk (opts : ParserOptions) (text : String) :
    pairsOkL (mainRoots opts text) = true :=
  (mainPass_inv opts.source (lineContexts opts.startLine text.data)
    initState rfl rfl).2

mutual

theorem pairsOkN_sound :
    (c : ConfigNode) → pairsOkN c = true →
      ∀ P ∈ preorderNode c, ∀ N ∈ P.children,
        pairOkB P.shallow N.shallow = true
  | .mk i t r pr cs s l dd => by
    intro h P hP N hN
    rw [pairsOkN_eq, Bool.and_eq_true] at h
    rw [preorderNode] at hP
    rcases List.mem_cons.mp hP with rfl | hP'
    · have hall := h.1
      rw [List.all_eq_true] at hall
      exact hall N hN
    · exact pairsOkL_sound cs h.2 P hP' N hN

theorem pairsOkL_sound :
    (l : List ConfigNode) → pairsOkL l = true →
      ∀ P ∈ preorderList l, ∀ N ∈ P.children,
        pairOkB P.shallow N.shallow = true
  | [] => by
    intro _ P hP
    rw [preorderList_nil] at hP
    cases hP
  | c :: cs => by
    intro h P hP N hN
    rw [pairsOkL_cons, Bool.and_eq_true] at h
    rw [preorderList_cons] at hP
    rcases List.mem_append.mp hP with hP' | hP'
    · exact pairsOkN_sound c h.1 P hP' N hN
    · exact pairsOkL_sound cs h.2 P hP' N hN

end

theorem addToVirtualRoot_type (vr n : ConfigNode) :
    (addToVirtualRoot vr n).type = vr.type := by
  cases vr; rfl

/-- Every non-virtual-root node of the wrapper's output lives (with its
whole subtree) in the input forest or in the accumulator's children. -/
theorem preorder_avcGo_nonVR (src : Source) :
    ∀ (ns : List ConfigNode) (acc : Option ConfigNode),
      (∀ vr, acc = some vr → vr.type = .virtual_root) →
      ∀ P ∈ preorderList (avcGo src ns acc), P.type ≠ .virtual_root →
        P ∈ preorderList ns ∨
          ∃ vr, acc = some vr ∧ P ∈ preorderList vr.children := by
  intro ns
  induction ns with
  | nil =>
    intro acc hacc P hP hty
    cases acc with
    | none =>
      rw [show avcGo src [] none = [] from rfl, preorderList_nil] at hP
      cases hP
    | some vr =>
      rw [show avcGo src [] (some vr) = [vr] from rfl, preorderList_cons,
        preorderList_nil, List.append_nil, preorderNode_eq] at hP
      rcases List.mem_cons.mp hP with rfl | hP'
      · exact absurd (hacc P rfl) hty
      · exact Or.inr ⟨vr, rfl, hP'⟩
  | cons n rest ih =>
    intro acc hacc P hP hty
    cases acc with
    | none =>
      by_cases hcc : n.type = .command
      · rw [show avcGo src (n :: rest) none =
          avcGo src rest (some (newVirtualRoot src n)) by simp [avcGo, hcc]]
          at hP
        rcases ih (some (newVirtualRoot src n))
          (by intro vr h; injection h with h; subst h; rfl) P hP hty with
          h' | ⟨vr, hvr, h'⟩
        · exact Or.inl (by
            rw [preorderList_cons]
            exact List.mem_append_right _ h')
        · injection hvr with hvr
          subst hvr
          rw [newVirtualRoot_children] at h'
          refine Or.inl ?_
          rw [preorderList_cons]
          exact List.mem_append_left _
            (by simpa [preorderList_cons, preorderList_nil] using h')
      · rw [show avcGo src (n :: rest) none = n :: avcGo src rest none by
          simp [avcGo, hcc], preorderList_cons] at hP
        rcases List.mem_append.mp hP with h' | h'
        · exact Or.inl (by
            rw [preorderList_cons]
            exact List.mem_append_left _ h')
        · rcases ih none (by intro vr h; cases h) P h' hty with
            h'' | ⟨vr, hvr, -⟩
          · exact Or.inl (by
              rw [preorderList_cons]
              exact List.mem_append_right _ h'')
          · cases hvr
    | some vr =>
      have hvrty := hacc vr rfl
      by_cases hcc : n.type = .command
      · rw [show avcGo src (n :: rest) (some vr) =
          avcGo src rest (some (addToVirtualRoot vr n)) by simp [avcGo, hcc]]
          at hP
        rcases ih (some (addToVirtualRoot vr n))
          (by
            intro vr' h
            injection h with h
            subst h
            rw [addToVirtualRoot_type]
            exact hvrty) P hP hty with h' | ⟨vr', hvr', h'⟩
        · exact Or.inl (by
            rw [preorderList_cons]
            exact List.mem_append_right _ h')
        · injection hvr' with hvr'
          subst hvr'
          rw [addToVirtualRoot_children, preorderList_append] at h'
          rcases List.mem_append.mp h' with h'' | h''
          · exact Or.inr ⟨vr, rfl, h''⟩
          · refine Or.inl ?_
            rw [preorderList_cons]
            exact List.mem_append_left _
              (by simpa [preorderList_cons, preorderList_nil] using h'')
      · rw [show avcGo src (n :: rest) (some vr) =
          vr :: n :: avcGo src rest none by simp [avcGo, hcc],
          preorderList_cons, preorderNode_eq vr] at hP
        rcases List.mem_append.mp hP with h' | h'
        · rcases List.mem_cons.mp h' with rfl | h''
          · exact absurd hvrty hty
          · exact Or.inr ⟨vr, rfl, h''⟩
        · rw [preorderList_cons] at h'
          rcases List.mem_append.mp h' with h'' | h''
          · exact Or.inl (by
              rw [preorderList_cons]
              exact List.mem_append_left _ h'')
          · rcases ih none (by intro v h; cases h) P h'' hty with
              h3 | ⟨v, hv, -⟩
            · exact Or.inl (by
                rw [preorderList_cons]
                exact List.mem_append_right _ h3)
            · cases hv

/-- C10: in every parse forest, a parent that is not a virtual root always
has strictly smaller indent than each of its children — the
indentation-break pop rule guarantees the strict inequality even when a
block starter attaches under a section. -/
theorem C10_child_indent_strict (opts : ParserOptions) (text : String) :
    ∀ P ∈ preorderList (parse opts text), P.type ≠ .virtual_root →
      ∀ N ∈ P.children, ∃ pi ni,
        P.indent = some pi ∧ N.indent = some ni ∧ pi < ni := by
  intro P hP hty N hN
  have hmain : P ∈ preorderList (mainRoots opts text) := by
    rcases preorder_avcGo_nonVR opts.source (mainRoots opts text) none
      (by intro vr h; cases h) P hP hty with h | ⟨vr, hvr, -⟩
    · exact h
    · cases hvr
  have hpair := pairsOkL_sound (mainRoots opts text)
    (mainRoots_pairsOk opts text) P hmain N hN
  rw [pairOkB, Bool.or_eq_true, decide_eq_true_eq] at hpair
  rcases hpair with h | h
  · rw [shallow_type] at h
    exact absurd h hty
  · rw [shallow_indent, shallow_indent] at h
    cases hpi : P.indent with
    | none =>
      rw [hpi] at h
      cases h
    | some pi =>
      cases hni : N.indent with
      | none =>
        rw [hpi, hni] at h
        cases h
      | some ni =>
        rw [hpi, hni] at h
        exact ⟨pi, ni, rfl, rfl, by simpa using h⟩

/-- Witness for C10: the section/command pair of `cexTextNest`. -/
theorem C10_child_indent_witness :
    secNode1 ∈ preorderList (parse defaultOptions cexTextNest) ∧
      secNode1.type ≠ .virtual_root ∧ cmdNode1 ∈ secNode1.children ∧
      ∃ pi ni, secNode1.indent = some pi ∧ cmdNode1.indent = some ni ∧
        pi < ni := by
  have hm : secNode1 ∈ preorderList (parse defaultOptions cexTextNest) := by
    rw [show preorderList (parse defaultOptions cexTextNest) =
      [secNode1, cmdNode1] from rfl]
    exact List.mem_cons_self _ _
  have hc : cmdNode1 ∈ secNode1.children := by
    rw [show secNode1.children = [cmdNode1] from rfl]
    exact List.mem_singleton.mpr rfl
  exact ⟨hm, by decide, hc,
    C10_child_indent_strict defaultOptions cexTextNest secNode1 hm
      (by decide) cmdNode1 hc⟩

/-- C5: one iteration of the main loop, on any reachable state.  The loop
pops exactly while the top satisfies the indentation-break / promotion
disjunction; the created node is a `section` iff the sanitized line matches
a block-starter pattern, and is pushed; if the popped stack is empty the
node joins the root forest, otherwise it is appended to the children of a
node matching the remaining top. -/
theorem C5_stack_step (src : Source) (L : ParsedLine) (st : PState)
    (hinv : stateInvB st = true) (hpairs : pairsOkL st.roots = true)
    (hL : L.isBlockStarter = isSchemaBlockStarter L.sanitized) :
    popLoop L st.stack = st.stack.dropWhile (shouldPop L) ∧
    (∀ e : StackEntry, shouldPop L e =
      (decide (L.indent ≤ e.indent) ||
        (L.isBlockStarter && !(e.type = NodeType.«section»)))) ∧
    (createConfigNode src L).type =
      (if isSchemaBlockStarter L.sanitized = true then NodeType.«section»
       else NodeType.command) ∧
    (processLine src st L).stack =
      mkEntry L :: st.stack.dropWhile (shouldPop L) ∧
    (st.stack.dropWhile (shouldPop L) = [] →
      (processLine src st L).roots = st.roots ++ [createConfigNode src L]) ∧
    (∀ T ts, st.stack.dropWhile (shouldPop L) = T :: ts →
      ∃ P ∈ preorderList (processLine src st L).roots,
        entryAgrees T P = true ∧ createConfigNode src L ∈ P.children) := by
  refine ⟨popLoop_eq_dropWhile L st.stack, fun e => rfl, ?_, ?_, ?_, ?_⟩
  · show nodeTypeOf L = _
    rw [nodeTypeOf, hL]
  · show mkEntry L :: popLoop L st.stack = _
    rw [popLoop_eq_dropWhile]
  · intro h
    have hkept : popLoop L st.stack = [] := by
      rw [popLoop_eq_dropWhile, h]
    simp only [processLine, hkept]
  · intro T ts h
    have hkept : popLoop L st.stack = T :: ts := by
      rw [popLoop_eq_dropWhile, h]
    have hstack_ne : st.stack ≠ [] := by
      intro h0
      rw [h0] at hkept
      simp [popLoop] at hkept
    obtain ⟨r, hr, hsm⟩ : ∃ r, st.roots.getLast? = some r ∧
        spineMatchB st.stack.reverse r = true := by
      cases hs : st.stack with
      | nil => exact absurd hs hstack_ne
      | cons a as =>
        cases hg : st.roots.getLast? with
        | none =>
          rw [stateInvB, hs, hg] at hinv
          cases hinv
        | some r =>
          rw [stateInvB, hs, hg] at hinv
          exact ⟨r, rfl, by simpa using hinv⟩
    have hrev : st.stack.reverse =
        (T :: ts).reverse ++ (st.stack.takeWhile (shouldPop L)).reverse := by
      conv_lhs => rw [← List.takeWhile_append_dropWhile (shouldPop L) st.stack]
      rw [h, List.reverse_append]
    have hsm' : spineMatchB (ts.reverse ++ [T]) r = true := by
      rw [← List.reverse_cons]
      exact spineMatchB_append_left _ _ r (by rw [← hrev]; exact hsm)
    have hT : shouldPop L T = false := by
      have := List.head?_dropWhile_not (shouldPop L) st.stack
      rw [h] at this
      simpa using this
    have hpe : pairOkE T (createConfigNode src L).shallow = true := by
      rw [shouldPop, Bool.or_eq_false_iff, decide_eq_false_iff_not] at hT
      have hlt : T.indent < L.indent := by omega
      rw [pairOkE]
      rw [show (createConfigNode src L).shallow.indent = some L.indent
        from rfl]
      simp [hlt]
    have hpr : pairsOkN r = true :=
      pairsOkL_mem hpairs (List.mem_of_mem_getLast? (by rw [hr]; rfl))
    obtain ⟨-, -, P, hPmem, hPag, hPn⟩ :=
      appendAtSpine_attach (createConfigNode src L) (mkEntry L)
        (entryAgrees_mkEntry src L) (pairsOkN_createConfigNode src L)
        ts.reverse T r hsm' hpe hpr
    have hlen : (T :: ts).length - 1 = ts.reverse.length := by simp
    have hPL : (processLine src st L).roots =
        updLastD
          (fun x => appendAtSpine ts.reverse.length x (createConfigNode src L))
          (createConfigNode src L) st.roots := by
      simp only [processLine, hkept, hlen]
    rw [hPL]
    refine ⟨P, ?_, hPag, hPn⟩
    exact mem_preorderList_of_mem_preorderNode
      (mem_updLastD_last _ _ st.roots r hr) hPmem

/-- Witness for C5: processing the indented `ip address` line on the state
holding the open `interface Gi0/1` section. -/
theorem C5_stack_step_witness :
    stateInvB ⟨[secNode0], [⟨0, NodeType.«section»⟩]⟩ = true ∧
      pairsOkL [secNode0] = true ∧
      wLine.isBlockStarter = isSchemaBlockStarter wLine.sanitized ∧
      (processLine .base ⟨[secNode0], [⟨0, NodeType.«section»⟩]⟩ wLine).stack =
        mkEntry wLine ::
          ([⟨0, NodeType.«section»⟩] : List StackEntry).dropWhile
            (shouldPop wLine) := by
  refine ⟨by decide, by decide, by decide, ?_⟩
  exact (C5_stack_step .base wLine ⟨[secNode0], [⟨0, NodeType.«section»⟩]⟩
    (by decide) (by decide) (by decide)).2.2.2.1

end Gecko
